import Mathlib

/-!
Shallow embedding of the Proportional Veto Core (PVC) playground
(`src/lib/pvc.ts` in its two revisions, and the `computePVC` classifier in
`src/routes/+page.svelte`).

Conventions of the embedding:
* JavaScript floating-point numbers are modelled by `ℚ`; the code's own
  tolerance-based comparison (`areNumbersApproximatelyEqual`, tolerance
  `Number.EPSILON = 2 ^ (-52)`) is carried over verbatim on `ℚ`.
* A thrown exception (the `assert` helper in the source) is modelled by
  `Option.none`; a normal return of value `v` is `Option.some v`.
* JavaScript `Map`/`Set` objects are modelled by their observable behaviour:
  a `Map` built by `forEach`+`set` is a last-write-wins lookup
  (`altToIndexGet`), a `Set` is an insertion-ordered duplicate-free list
  (`jsSetOfList`).
* An out-of-bounds array read (JS `undefined`) is modelled by the default
  value `""` (for strings) — downstream both behave alike: they are not a
  member of the alternative universe.
-/

/-- Number.EPSILON, the tolerance used by the source's approximate
equality. -/
def jsEpsilon : ℚ := 1 / 2 ^ 52

/-- Embedding of `areNumbersApproximatelyEqual` (part_000 lines 12-14) with the
default tolerance: `|num1 - num2| < Number.EPSILON`.  It is written by
cross-multiplying the fraction representations (the denominators are
positive), which the lemma `areNumbersApproximatelyEqual_iff` below proves
equivalent to the literal `|num1 - num2| < jsEpsilon`. -/
def areNumbersApproximatelyEqual (num1 num2 : ℚ) : Bool :=
  (num1.num * num2.den - num2.num * num1.den).natAbs * 2 ^ 52
    < num1.den * num2.den

/-- One `Set.add` step of a JavaScript `Set`: ignored if present, appended
otherwise (insertion order is preserved by JS sets). -/
def jsSetInsert {α : Type} [DecidableEq α] (s : List α) (x : α) : List α :=
  if x ∈ s then s else s ++ [x]

/-- A JavaScript `Set` built from a list by inserting the elements in order;
`Array.from` of such a set returns exactly this list. -/
def jsSetOfList {α : Type} [DecidableEq α] (l : List α) : List α :=
  l.foldl jsSetInsert []

/-- JavaScript `array.indexOf(x)`: index of the first occurrence, `none`
standing for `-1`. -/
def jsIndexOf {α : Type} [DecidableEq α] : List α → α → Option Nat
  | [], _ => none
  | x :: xs, a =>
    if x = a then some 0
    else match jsIndexOf xs a with
      | some i => some (i + 1)
      | none => none

/-- JavaScript `array.slice(-p)` : for `p > 0` the last `min p len` elements;
for `p = 0` (because `-0 === 0`) the whole array. -/
def jsSliceNeg {α : Type} (l : List α) (p : Nat) : List α :=
  if p = 0 then l else l.drop (l.length - p)

/-- The cell `preferences[rank][voter]` of the preference matrix, out-of-bounds
reads giving `""` (JS `undefined`). -/
def getCell (preferences : List (List String)) (rank voter : Nat) : String :=
  (preferences.getD rank []).getD voter ""

/-- Column `j` of the preference matrix: voter `j`'s ranking, top first. -/
def columnOf (preferences : List (List String)) (j : Nat) : List String :=
  preferences.map (fun row => row.getD j "")

/-- The lookup `altToIndex.get(a)` where `altToIndex` is the `Map` built by
`alternatives.forEach((alt, idx) => altToIndex.set(alt, idx))`: the index of
the last occurrence of `a`, or `none` (JS `undefined`) if absent. -/
def altToIndexGet (alternatives : List String) (a : String) : Option Nat :=
  (List.range alternatives.length).foldl
    (fun acc i => if alternatives.getD i "" = a then some i else acc) none

/-- Sequential `mapM` over `Option`, mirroring a JS loop whose body may throw
(`none`) and which collects one result per element. -/
def mapMOpt {α β : Type} (f : α → Option β) : List α → Option (List β)
  | [] => some []
  | x :: xs =>
    match f x with
    | none => none
    | some y =>
      match mapMOpt f xs with
      | none => none
      | some ys => some (y :: ys)

/-- Sequential fold over `Option`, mirroring a JS loop carrying a mutable
state whose body may throw (`none`). -/
def foldlOpt {σ α : Type} (f : σ → α → Option σ) : σ → List α → Option σ
  | st, [] => some st
  | st, x :: xs =>
    match f st x with
    | none => none
    | some st2 => foldlOpt f st2 xs

/-- Dashboard scalar block of a `VetoCoalitionResult` (part_000 lines 24-30). -/
structure DashboardValues where
  T : Nat
  T_size : Nat
  v_T : ℚ
  B : List String
  lambda_B_over_P : ℚ
  deriving DecidableEq, Repr

/-- Result record of `computeVetoCoalition` (part_000 lines 20-31). -/
structure VetoCoalitionResult where
  coalition : List Nat
  selectedAlternative : String
  preferredAlternatives : List String
  dashboardValues : DashboardValues
  deriving DecidableEq, Repr

/-- Result of the internal `checkVetoCoalition` (part_000 lines 176-263). -/
structure CheckVetoResult where
  canVeto : Bool
  preferredAlternatives : List String
  deriving DecidableEq, Repr

/-- Embedding of `validateVoterPreferences` (identical in both revisions of
pvc.ts): length check, duplicate check via `Set` size, falsy-entry check
(`""` is the only falsy string arising here), membership check. -/
def validateVoterPreferences (voterPrefs : List String)
    (alternatives : List String) : Bool :=
  if voterPrefs.length ≠ alternatives.length then false
  else if (jsSetOfList voterPrefs).length ≠ voterPrefs.length then false
  else if voterPrefs.any (fun pref => pref = "") then false
  else voterPrefs.all (fun pref => decide (pref ∈ alternatives))

/-- Embedding of `generateAlternatives`: the first `m` lowercase letters. -/
def generateAlternatives (m : Nat) : List String :=
  (List.range m).map (fun i => String.mk [Char.ofNat (97 + i)])

/-- The veto admission test at the end of `checkVetoCoalition`
(part_000 lines 247-255): voting power `|T|*(m-1)/n` against veto size
`m - |B|`, compared strictly or up to the fixed tolerance.  The two
quantities are built with `mkRat`, which produces exactly the rationals
`tSize*(m-1)/n` and `m - bSize` (see `canVetoCond_iff` below). -/
def canVetoCond (m n tSize bSize : Nat) : Bool :=
  let veto_power : ℚ := mkRat ((tSize : Int) * ((m : Int) - 1)) n
  let veto_size : ℚ := mkRat ((m : Int) - (bSize : Int)) 1
  decide (veto_power > veto_size) ||
    areNumbersApproximatelyEqual veto_power veto_size

/-- The intersection loop of `checkVetoCoalition` (part_000 lines 223-245):
for each further coalition member, find the target's rank (early result
`none` here models the early `return {canVeto: false, ...}` when the target
is unranked, i.e. JS `indexOf === -1`) and intersect the accumulated set with
the alternatives that member ranks above the target. -/
def intersectPreferred (targetAltIndex : Nat) :
    List (List Nat) → List Nat → Option (List Nat)
  | [], acc => some acc
  | prefs :: rest, acc =>
    match jsIndexOf prefs targetAltIndex with
    | none => none
    | some targetRank =>
      intersectPreferred targetAltIndex rest
        (acc.filter (fun alt => decide (alt ∈ prefs.take targetRank)))

/-- Embedding of `checkVetoCoalition` (part_000 lines 176-263).  The outer
`Option` is the exception monad: `none` is a failed `assert` (an unknown
alternative in a scanned cell). -/
def checkVetoCoalition (alternative : String) (coalition : List Nat)
    (preferences : List (List String)) (alternatives : List String) :
    Option CheckVetoResult :=
  if coalition.isEmpty then some ⟨false, []⟩
  else
    let m := alternatives.length
    match mapMOpt (fun voterIndex =>
        mapMOpt (fun rank =>
            altToIndexGet alternatives (getCell preferences rank voterIndex))
          (List.range m))
        coalition with
    | none => none
    | some coalitionProfiles =>
      match altToIndexGet alternatives alternative with
      | none => some ⟨false, []⟩
      | some targetAltIndex =>
        let firstVoterPrefs := coalitionProfiles.headD []
        match jsIndexOf firstVoterPrefs targetAltIndex with
        | none => some ⟨false, []⟩
        | some targetRankInFirst =>
          match intersectPreferred targetAltIndex coalitionProfiles.tail
              (jsSetOfList (firstVoterPrefs.take targetRankInFirst)) with
          | none => some ⟨false, []⟩
          | some preferredByAll =>
            let n := (preferences.headD []).length
            let canVeto := canVetoCond m n coalition.length preferredByAll.length
            some ⟨canVeto,
              preferredByAll.map (fun idx => alternatives.getD idx "")⟩

/-- The coalition encoded by a bitmask: the ascending list of voters whose bit
is set (part_000 lines 288-293). -/
def maskToCoalition (coalitionMask n : Nat) : List Nat :=
  (List.range n).filter (fun voter => coalitionMask.testBit voter)

/-- Body of the coalition-mask loop of `computeVetoCoalition` (part_000
lines 286-301): decode the mask, run the check, and retain `(T, B)` when the
check passes with a non-empty `B`. -/
def vetoScanStep (alternative : String) (preferences : List (List String))
    (alternatives : List String) (n : Nat)
    (best : List Nat × List String) (coalitionMask : Nat) :
    Option (List Nat × List String) :=
  match checkVetoCoalition alternative (maskToCoalition coalitionMask n)
      preferences alternatives with
  | none => none
  | some result =>
    if result.canVeto && decide (result.preferredAlternatives.length > 0) then
      some (maskToCoalition coalitionMask n, result.preferredAlternatives)
    else some best

/-- Embedding of `computeVetoCoalition` (part_000 lines 273-318): scan all
non-empty coalition bitmasks in ascending order, retaining the last one that
both passes the veto condition and has a non-empty preferred set `B`.
The dashboard scalars are the exact rational values of the JS float
expressions `(|T|/n)*(m-1)` and `|B|/m` (with `n = 0` the JS values would be
`NaN`; no claim concerns the dashboard in that case). -/
def computeVetoCoalition (alternative : String)
    (preferences : List (List String)) (alternatives : List String) :
    Option VetoCoalitionResult :=
  let m := alternatives.length
  let n := (preferences.headD []).length
  match foldlOpt (vetoScanStep alternative preferences alternatives n)
    ([], []) (List.range' 1 (2 ^ n - 1)) with
  | none => none
  | some (bestCoalition, bestPreferred) =>
    some
      { coalition := bestCoalition
        selectedAlternative := alternative
        preferredAlternatives := bestPreferred
        dashboardValues :=
          { T := bestCoalition.length
            T_size := bestCoalition.length
            v_T := mkRat ((bestCoalition.length : Int) * ((m : Int) - 1)) n
            B := bestPreferred
            lambda_B_over_P := mkRat (bestPreferred.length : Int) m } }

/-- Body of the per-alternative loop of the `computePVC` of
`src/routes/+page.svelte` (first revision, lines 80-89): an alternative is
appended to the non-vetoable list exactly when its veto search returns an
empty preferred set. -/
def classifierStep (preferences : List (List String))
    (alternatives : List String) (nonVetoable : List String)
    (alternative : String) : Option (List String) :=
  match computeVetoCoalition alternative preferences alternatives with
  | none => none
  | some result =>
    if decide (result.preferredAlternatives.length > 0) then some nonVetoable
    else some (nonVetoable ++ [alternative])

/-- Embedding of the `computePVC` of `src/routes/+page.svelte` (first
revision, lines 73-99): the veto-based classifier.  The PVC consists of the
alternatives that cannot be vetoed. -/
def computePVCClassifier (preferences : List (List String))
    (alternatives : List String) : Option (List String) :=
  foldlOpt (classifierStep preferences alternatives) [] alternatives

/-- Conversion of the preference matrix to the numeric per-voter profile
(part_000 lines 61-72); `assert(index != -1)` is the `none` case. -/
def buildNumericProfile (preferences : List (List String))
    (alternatives : List String) (m n : Nat) : Option (List (List Nat)) :=
  mapMOpt (fun voter =>
      mapMOpt (fun rank =>
          altToIndexGet alternatives (getCell preferences rank voter))
        (List.range m))
    (List.range n)

/-- Mutable state of the successive-elimination rounds: the duplicated
multiset as a list, plus the count `Map` (lookup-with-default-0 view). -/
structure ElimState where
  remainingAlts : List Nat
  remainingCounts : Nat → Nat

/-- One `toEliminate.forEach` body (both revisions): locate and splice the
first occurrence (the `assert(index > -1)` is the `none` case) and decrement
the count (deleting at zero equals storing zero under the default-0 view). -/
def eliminateOne (st : ElimState) (altToRemove : Nat) : Option ElimState :=
  if altToRemove ∈ st.remainingAlts then
    some ⟨st.remainingAlts.erase altToRemove,
      Function.update st.remainingCounts altToRemove
        (st.remainingCounts altToRemove - 1)⟩
  else none

/-- The duplicated preference order of one voter restricted to the remaining
items (both revisions): each ranked alternative repeated `count` times. -/
def remainingPrefsOf (voterPrefs : List Nat) (counts : Nat → Nat) : List Nat :=
  voterPrefs.foldl (fun acc alt => acc ++ List.replicate (counts alt) alt) []

/-- One elimination round for one voter: drop the `p` least preferred
remaining duplicated items (via JS `slice(-p)`). -/
def eliminationRound (p : Nat) (st : ElimState) (voterPrefs : List Nat) :
    Option ElimState :=
  foldlOpt eliminateOne st
    (jsSliceNeg (remainingPrefsOf voterPrefs st.remainingCounts) p)

/-- All `n` elimination rounds in voter order.  `checkRoundStart` is the
additional `assert(remainingAlts.length > 1)` present only in the
`src/lib/pvc.ts` revision (line 88). -/
def runElimination (checkRoundStart : Bool) (p : Nat)
    (profile : List (List Nat)) (st : ElimState) : Option ElimState :=
  foldlOpt (fun st voterPrefs =>
      if checkRoundStart && decide (st.remainingAlts.length ≤ 1) then none
      else eliminationRound p st voterPrefs)
    st profile

/-- Initial duplicated multiset: each of the `m` alternatives repeated `q`
times, in index order. -/
def initialRemainingAlts (m q : Nat) : List Nat :=
  (List.range m).foldl (fun acc alt => acc ++ List.replicate q alt) []

/-- Embedding of the successive-elimination `computePVC` of part_000
(lines 39-166): reduce `(m-1)/n`, duplicate each alternative `q` times, run
`n` rounds, collapse the survivors through a `Set`.  An unknown alternative
fails the conversion `assert` (`none`). -/
def computePVC (preferences : List (List String))
    (alternatives : List String) : Option (List String) :=
  let m := alternatives.length
  let n := (preferences.headD []).length
  if m = 0 ∨ n = 0 then some []
  else
    match buildNumericProfile preferences alternatives m n with
    | none => none
    | some profile =>
      let commonDivisor := Nat.gcd (m - 1) n
      let p := (m - 1) / commonDivisor
      let q := n / commonDivisor
      match runElimination false p profile
          ⟨initialRemainingAlts m q, fun alt => if alt < m then q else 0⟩ with
      | none => none
      | some finalState =>
        some ((jsSetOfList finalState.remainingAlts).map
          (fun idx => alternatives.getD idx ""))

/-- Embedding of the successive-elimination `computePVC` of `src/lib/pvc.ts`
(lines 35-125): same algorithm, but an unknown alternative is a normal
`return []` (line 53), each round begins with
`assert(remainingAlts.length > 1)` (line 88), and the final non-emptiness
`assert` (line 119) is live. -/
def computePVCLib (preferences : List (List String))
    (alternatives : List String) : Option (List String) :=
  let m := alternatives.length
  let n := (preferences.headD []).length
  if m = 0 ∨ n = 0 then some []
  else
    match buildNumericProfile preferences alternatives m n with
    | none => some []
    | some profile =>
      let commonDivisor := Nat.gcd (m - 1) n
      let p := (m - 1) / commonDivisor
      let q := n / commonDivisor
      match runElimination true p profile
          ⟨initialRemainingAlts m q, fun alt => if alt < m then q else 0⟩ with
      | none => none
      | some finalState =>
        if finalState.remainingAlts.isEmpty then none
        else
          some ((jsSetOfList finalState.remainingAlts).map
            (fun idx => alternatives.getD idx ""))

/-- Embedding of the stub `computeVetoCoalition` of `src/lib/pvc.ts`
(lines 135-166).  Its two `Math.random()` calls are modelled by the explicit
oracle arguments `rand1` (for `v_T`) and `rand2` (for `lambda_B_over_P`);
`alternatives.slice(0, altIndex)` with `altIndex = -1` drops the last
element. -/
def computeVetoCoalitionLib (alternative : String)
    (preferences : List (List String)) (alternatives : List String)
    (rand1 rand2 : ℚ) : VetoCoalitionResult :=
  let n := (preferences.headD []).length
  let coalition : List Nat := if n < 3 then [0] else [0, 2]
  let preferredAlternatives :=
    match jsIndexOf alternatives alternative with
    | some altIndex => alternatives.take altIndex
    | none => alternatives.dropLast
  { coalition := coalition
    selectedAlternative := alternative
    preferredAlternatives := preferredAlternatives
    dashboardValues :=
      { T := coalition.length
        T_size := coalition.length
        v_T := ((rand1 * 10).floor : ℚ)
        B := preferredAlternatives
        lambda_B_over_P := rand2 } }

/-- Validity of a whole profile, exactly as the spec defines it: every
voter's column passes `validateVoterPreferences` (the number of voters being
`preferences[0].length`, as the code computes it). -/
def validProfile (preferences : List (List String))
    (alternatives : List String) : Prop :=
  ∀ j < (preferences.headD []).length,
    validateVoterPreferences (columnOf preferences j) alternatives = true

/-! ### Generic helper lemmas -/

theorem getLast?_cons_isSome {α : Type} (a : α) (l : List α) :
    ((a :: l).getLast?).isSome := by
  induction l generalizing a with
  | nil => rfl
  | cons b l ih => rw [List.getLast?_cons_cons]; exact ih b

theorem foldl_ifMatch {P : Nat → Prop} [DecidablePred P] :
    ∀ (l : List Nat) (init : Option Nat),
      l.foldl (fun acc i => if P i then some i else acc) init =
        ((l.filter (fun i => decide (P i))).getLast?).elim init some := by
  intro l
  induction l with
  | nil => intro init; rfl
  | cons x xs ih =>
    intro init
    rw [List.foldl_cons, ih]
    by_cases hx : P x
    · rw [List.filter_cons_of_pos (by simpa using hx), if_pos hx]
      cases hfil : xs.filter (fun i => decide (P i)) with
      | nil => rfl
      | cons y ys =>
        rw [List.getLast?_cons_cons]
        obtain ⟨z, hz⟩ := Option.isSome_iff_exists.mp (getLast?_cons_isSome y ys)
        rw [hz]
        rfl
    · rw [List.filter_cons_of_neg (by simpa using hx), if_neg hx]

theorem jsIndexOf_eq_none {α : Type} [DecidableEq α] {l : List α} {a : α} :
    jsIndexOf l a = none ↔ a ∉ l := by
  induction l with
  | nil => simp [jsIndexOf]
  | cons x xs ih =>
    by_cases hx : x = a
    · simp [jsIndexOf, hx]
    · simp only [jsIndexOf, if_neg hx]
      cases hxs : jsIndexOf xs a with
      | some i =>
        have hmem : a ∈ xs := by
          by_contra hno
          rw [← ih] at hno
          rw [hno] at hxs
          cases hxs
        simp [List.mem_cons, hmem]
      | none =>
        have hno : a ∉ xs := ih.mp hxs
        simp [List.mem_cons, hno]
        exact fun h => hx h.symm

theorem jsIndexOf_get? {α : Type} [DecidableEq α] :
    ∀ {l : List α} {a : α} {i : Nat},
      jsIndexOf l a = some i → l[i]? = some a := by
  intro l
  induction l with
  | nil => intro a i h; simp [jsIndexOf] at h
  | cons x xs ih =>
    intro a i h
    by_cases hx : x = a
    · simp [jsIndexOf, hx] at h
      subst h
      simp [hx]
    · simp only [jsIndexOf, if_neg hx] at h
      cases hxs : jsIndexOf xs a with
      | some j =>
        rw [hxs] at h
        simp at h
        subst h
        simpa using ih hxs
      | none => rw [hxs] at h; simp at h

theorem jsIndexOf_of_nodup_getElem? {α : Type} [DecidableEq α] :
    ∀ {l : List α} {a : α} {i : Nat},
      l.Nodup → l[i]? = some a → jsIndexOf l a = some i := by
  intro l
  induction l with
  | nil => intro a i _ h; simp at h
  | cons x xs ih =>
    intro a i hnd h
    cases i with
    | zero =>
      simp at h
      simp [jsIndexOf, h]
    | succ j =>
      simp at h
      have hmem : a ∈ xs := by
        rw [List.mem_iff_getElem?]
        exact ⟨j, h⟩
      have hx : x ≠ a := by
        intro hxa
        subst hxa
        exact (List.nodup_cons.mp hnd).1 hmem
      have := ih (List.nodup_cons.mp hnd).2 h
      simp [jsIndexOf, hx, this]

theorem jsIndexOf_isSome_of_mem {α : Type} [DecidableEq α] {l : List α} {a : α}
    (h : a ∈ l) : ∃ i, jsIndexOf l a = some i := by
  induction l with
  | nil => simp at h
  | cons x xs ih =>
    by_cases hx : x = a
    · exact ⟨0, by simp [jsIndexOf, hx]⟩
    · have hmem : a ∈ xs := by
        cases List.mem_cons.mp h with
        | inl h2 => exact absurd h2.symm hx
        | inr h2 => exact h2
      obtain ⟨i, hi⟩ := ih hmem
      exact ⟨i + 1, by simp [jsIndexOf, hx, hi]⟩

theorem mem_jsSetInsert {α : Type} [DecidableEq α] {s : List α} {x y : α} :
    y ∈ jsSetInsert s x ↔ y ∈ s ∨ y = x := by
  unfold jsSetInsert
  by_cases hx : x ∈ s
  · simp only [if_pos hx]
    constructor
    · exact Or.inl
    · rintro (h | rfl)
      · exact h
      · exact hx
  · simp [if_neg hx]

theorem mem_foldl_jsSetInsert {α : Type} [DecidableEq α] :
    ∀ (l acc : List α) (y : α),
      y ∈ l.foldl jsSetInsert acc ↔ y ∈ acc ∨ y ∈ l := by
  intro l
  induction l with
  | nil => simp
  | cons x xs ih =>
    intro acc y
    rw [List.foldl_cons, ih, mem_jsSetInsert]
    simp only [List.mem_cons]
    tauto

theorem nodup_jsSetInsert {α : Type} [DecidableEq α] {s : List α} {x : α}
    (h : s.Nodup) : (jsSetInsert s x).Nodup := by
  unfold jsSetInsert
  by_cases hx : x ∈ s
  · rw [if_pos hx]; exact h
  · rw [if_neg hx]
    exact (List.perm_append_singleton x s).symm.nodup (List.nodup_cons.mpr ⟨hx, h⟩)

theorem nodup_foldl_jsSetInsert {α : Type} [DecidableEq α] :
    ∀ (l acc : List α), acc.Nodup → (l.foldl jsSetInsert acc).Nodup := by
  intro l
  induction l with
  | nil => intro acc h; exact h
  | cons x xs ih => intro acc h; exact ih _ (nodup_jsSetInsert h)

theorem mem_jsSetOfList {α : Type} [DecidableEq α] {l : List α} {y : α} :
    y ∈ jsSetOfList l ↔ y ∈ l := by
  unfold jsSetOfList
  rw [mem_foldl_jsSetInsert]
  simp

theorem nodup_jsSetOfList {α : Type} [DecidableEq α] (l : List α) :
    (jsSetOfList l).Nodup :=
  nodup_foldl_jsSetInsert l [] List.nodup_nil

theorem foldl_jsSetInsert_of_nodup {α : Type} [DecidableEq α] :
    ∀ (l acc : List α), l.Nodup → (∀ x ∈ l, x ∉ acc) →
      l.foldl jsSetInsert acc = acc ++ l := by
  intro l
  induction l with
  | nil => simp
  | cons x xs ih =>
    intro acc hnd hdis
    have hx : x ∉ acc := hdis x (List.mem_cons_self x xs)
    have hstep : jsSetInsert acc x = acc ++ [x] := by
      unfold jsSetInsert; rw [if_neg hx]
    rw [List.foldl_cons, hstep,
      ih (acc ++ [x]) (List.nodup_cons.mp hnd).2 (by
        intro y hy hmem
        rcases List.mem_append.mp hmem with h | h
        · exact hdis y (List.mem_cons_of_mem x hy) h
        · rw [List.mem_singleton] at h
          subst h
          exact (List.nodup_cons.mp hnd).1 hy)]
    simp

theorem jsSetOfList_of_nodup {α : Type} [DecidableEq α] {l : List α}
    (h : l.Nodup) : jsSetOfList l = l := by
  unfold jsSetOfList
  simpa using foldl_jsSetInsert_of_nodup l [] h (by simp)

theorem nodup_of_jsSetOfList_length {α : Type} [DecidableEq α] {l : List α}
    (h : (jsSetOfList l).length = l.length) : l.Nodup := by
  have h1 : (jsSetOfList l).Nodup := nodup_jsSetOfList l
  have h3 : (jsSetOfList l).toFinset = l.toFinset := by
    apply Finset.ext
    intro y
    simp [List.mem_toFinset, mem_jsSetOfList]
  have h4 : l.dedup.length = l.length := by
    have := List.card_toFinset (l := l)
    rw [← h3, List.toFinset_card_of_nodup h1, h] at this
    omega
  have h5 : l.dedup = l := (List.dedup_sublist l).eq_of_length h4
  exact List.dedup_eq_self.mp h5

theorem mapMOpt_eq_map {α β : Type} {f : α → Option β} {g : α → β} :
    ∀ {l : List α}, (∀ x ∈ l, f x = some (g x)) →
      mapMOpt f l = some (l.map g) := by
  intro l
  induction l with
  | nil => intro _; rfl
  | cons x xs ih =>
    intro h
    have hx := h x (List.mem_cons_self x xs)
    have hxs := ih (fun y hy => h y (List.mem_cons_of_mem x hy))
    simp [mapMOpt, hx, hxs]

theorem mapMOpt_eq_none {α β : Type} {f : α → Option β} :
    ∀ {l : List α}, (∃ x ∈ l, f x = none) → mapMOpt f l = none := by
  intro l
  induction l with
  | nil => rintro ⟨x, hx, _⟩; simp at hx
  | cons y xs ih =>
    rintro ⟨x, hx, hfx⟩
    cases List.mem_cons.mp hx with
    | inl h =>
      subst h
      simp [mapMOpt, hfx]
    | inr h =>
      cases hfy : f y with
      | none => simp [mapMOpt, hfy]
      | some v =>
        have := ih ⟨x, h, hfx⟩
        simp [mapMOpt, hfy, this]

/-! ### Lemmas about the alternative-index map -/

/-- The total variant of `altToIndexGet`, used to name the numeric index of an
alternative that is known to be in the universe. -/
def altIdxD (alternatives : List String) (a : String) : Nat :=
  (altToIndexGet alternatives a).getD 0

theorem getD_mem_of_lt {α : Type} {l : List α} {i : Nat} {d : α}
    (h : i < l.length) : l.getD i d ∈ l := by
  rw [List.getD_eq_getElem?_getD, List.getElem?_eq_getElem h]
  exact List.getElem_mem h

theorem altToIndexGet_eq_none_of_not_mem {alternatives : List String}
    {a : String} (h : a ∉ alternatives) : altToIndexGet alternatives a = none := by
  unfold altToIndexGet
  rw [foldl_ifMatch]
  have hfil : (List.range alternatives.length).filter
      (fun i => decide (alternatives.getD i "" = a)) = [] := by
    rw [List.filter_eq_nil_iff]
    intro i hi
    simp only [List.mem_range] at hi
    simp only [decide_eq_true_eq]
    intro heq
    exact h (heq ▸ getD_mem_of_lt hi)
  rw [hfil]
  rfl

theorem altToIndexGet_spec {alternatives : List String} {a : String}
    (h : a ∈ alternatives) :
    altToIndexGet alternatives a = some (altIdxD alternatives a) ∧
      altIdxD alternatives a < alternatives.length ∧
      alternatives.getD (altIdxD alternatives a) "" = a := by
  obtain ⟨n, hn⟩ := List.mem_iff_getElem?.mp h
  have hlen : n < alternatives.length := by
    by_contra hge
    rw [List.getElem?_eq_none (Nat.le_of_not_lt hge)] at hn
    cases hn
  have hne : (List.range alternatives.length).filter
      (fun i => decide (alternatives.getD i "" = a)) ≠ [] := by
    rw [ne_eq, List.filter_eq_nil_iff]
    push_neg
    refine ⟨n, List.mem_range.mpr hlen, ?_⟩
    simp only [decide_eq_true_eq]
    rw [List.getD_eq_getElem?_getD, hn]
    rfl
  have hfold := foldl_ifMatch (P := fun i => alternatives.getD i "" = a)
    (List.range alternatives.length) none
  cases hfil : (List.range alternatives.length).filter
      (fun i => decide (alternatives.getD i "" = a)) with
  | nil => exact absurd hfil hne
  | cons y ys =>
    obtain ⟨z, hz⟩ := Option.isSome_iff_exists.mp (getLast?_cons_isSome y ys)
    have hget : altToIndexGet alternatives a = some z := by
      unfold altToIndexGet
      rw [hfold, hfil, hz]
      rfl
    have hzmem : z ∈ (List.range alternatives.length).filter
        (fun i => decide (alternatives.getD i "" = a)) := by
      rw [hfil]
      exact List.mem_of_getLast?_eq_some hz
    have hzprop := List.mem_filter.mp hzmem
    have hzlt : z < alternatives.length := List.mem_range.mp hzprop.1
    have hzeq : alternatives.getD z "" = a := by
      simpa using hzprop.2
    have hidx : altIdxD alternatives a = z := by
      unfold altIdxD
      rw [hget]
      rfl
    rw [hidx]
    exact ⟨hget, hzlt, hzeq⟩

theorem altIdxD_inj {alternatives : List String} {a b : String}
    (ha : a ∈ alternatives) (hb : b ∈ alternatives)
    (h : altIdxD alternatives a = altIdxD alternatives b) : a = b := by
  have sa := altToIndexGet_spec ha
  have sb := altToIndexGet_spec hb
  rw [← sa.2.2, ← sb.2.2, h]

/-! ### Lemmas about the Option-valued folds -/

theorem foldlOpt_invariant {σ α : Type} (Inv : σ → Prop)
    (f : σ → α → Option σ) :
    ∀ (l : List α) (init : σ), Inv init →
      (∀ st x, x ∈ l → Inv st → ∃ st2, f st x = some st2 ∧ Inv st2) →
      ∃ fin, foldlOpt f init l = some fin ∧ Inv fin := by
  intro l
  induction l with
  | nil => intro init h _; exact ⟨init, rfl, h⟩
  | cons x xs ih =>
    intro init h hstep
    obtain ⟨st2, hf, h2⟩ := hstep init x (List.mem_cons_self x xs) h
    obtain ⟨fin, hrun, hfin⟩ := ih st2 h2
      (fun st y hy => hstep st y (List.mem_cons_of_mem x hy))
    refine ⟨fin, ?_, hfin⟩
    simp only [foldlOpt, hf]
    exact hrun

theorem foldlOpt_scan {α σ ρ : Type} (c : α → Option ρ) (cond : ρ → Bool)
    (g : α → ρ → σ) (f : σ → α → Option σ)
    (hfn : ∀ st x, c x = none → f st x = none)
    (hfs : ∀ st x r, c x = some r →
      f st x = if cond r then some (g x r) else some st) :
    ∀ (l : List α) (init fin : σ),
      foldlOpt f init l = some fin →
      (∀ x ∈ l, (c x).isSome) ∧
      fin = ((l.filter (fun x => ((c x).map cond).getD false)).getLast?).elim
          init (fun x => ((c x).map (g x)).getD init) := by
  intro l
  induction l with
  | nil =>
    intro init fin h
    simp only [foldlOpt, Option.some.injEq] at h
    subst h
    exact ⟨by simp, rfl⟩
  | cons x xs ih =>
    intro init fin h
    simp only [foldlOpt] at h
    cases hc : c x with
    | none => rw [hfn init x hc] at h; cases h
    | some r =>
      rw [hfs init x r hc] at h
      have hmemq : ∀ y ∈ x :: xs, (c y).isSome → True := fun _ _ _ => trivial
      by_cases hcond : cond r = true
      · rw [if_pos hcond] at h
        obtain ⟨hall, hfin⟩ := ih (g x r) fin h
        constructor
        · intro y hy
          rcases List.mem_cons.mp hy with rfl | hmem
          · rw [hc]; rfl
          · exact hall y hmem
        · have hfilx : (x :: xs).filter
              (fun y => ((c y).map cond).getD false) =
              x :: xs.filter (fun y => ((c y).map cond).getD false) := by
            rw [List.filter_cons_of_pos]
            rw [hc]
            simpa using hcond
          rw [hfilx]
          cases hfil : xs.filter (fun y => ((c y).map cond).getD false) with
          | nil =>
            rw [hfil] at hfin
            simp only [List.getLast?_nil, Option.elim] at hfin
            rw [hfin]
            simp only [List.getLast?_singleton, Option.elim]
            rw [hc]
            rfl
          | cons y ys =>
            rw [hfil] at hfin
            rw [List.getLast?_cons_cons]
            obtain ⟨z, hz⟩ := Option.isSome_iff_exists.mp (getLast?_cons_isSome y ys)
            rw [hz] at hfin ⊢
            simp only [Option.elim] at hfin ⊢
            have hzmem : z ∈ xs.filter (fun y => ((c y).map cond).getD false) := by
              rw [hfil]
              exact List.mem_of_getLast?_eq_some hz
            have hzsome : (c z).isSome := by
              have := (List.mem_filter.mp hzmem).2
              cases hcz : c z with
              | none => rw [hcz] at this; simp at this
              | some _ => rfl
            obtain ⟨rz, hrz⟩ := Option.isSome_iff_exists.mp hzsome
            rw [hfin, hrz]
            rfl
      · rw [if_neg hcond] at h
        obtain ⟨hall, hfin⟩ := ih init fin h
        constructor
        · intro y hy
          rcases List.mem_cons.mp hy with rfl | hmem
          · rw [hc]; rfl
          · exact hall y hmem
        · have hfilx : (x :: xs).filter
              (fun y => ((c y).map cond).getD false) =
              xs.filter (fun y => ((c y).map cond).getD false) := by
            rw [List.filter_cons_of_neg]
            rw [hc]
            simpa using hcond
          rw [hfilx]
          exact hfin

theorem foldlOpt_filterAccum {α ρ : Type} (c : α → Option ρ) (q : ρ → Bool)
    (f : List α → α → Option (List α))
    (hfs : ∀ st x r, c x = some r →
      f st x = if q r then some st else some (st ++ [x])) :
    ∀ (l : List α) (acc : List α),
      (∀ x ∈ l, (c x).isSome) →
      foldlOpt f acc l =
        some (acc ++ l.filter (fun x => ((c x).map (fun r => !q r)).getD false)) := by
  intro l
  induction l with
  | nil => intro acc _; simp [foldlOpt]
  | cons x xs ih =>
    intro acc hall
    obtain ⟨r, hr⟩ := Option.isSome_iff_exists.mp
      (hall x (List.mem_cons_self x xs))
    simp only [foldlOpt, hfs acc x r hr]
    by_cases hq : q r = true
    · rw [if_pos hq]
      show foldlOpt _ acc xs = _
      rw [ih acc (fun y hy => hall y (List.mem_cons_of_mem x hy))]
      have : (x :: xs).filter (fun y => ((c y).map (fun r => !q r)).getD false) =
          xs.filter (fun y => ((c y).map (fun r => !q r)).getD false) := by
        rw [List.filter_cons_of_neg]
        rw [hr]
        simp [hq]
      rw [this]
    · rw [if_neg hq]
      show foldlOpt _ (acc ++ [x]) xs = _
      rw [ih (acc ++ [x]) (fun y hy => hall y (List.mem_cons_of_mem x hy))]
      have : (x :: xs).filter (fun y => ((c y).map (fun r => !q r)).getD false) =
          x :: xs.filter (fun y => ((c y).map (fun r => !q r)).getD false) := by
        rw [List.filter_cons_of_pos]
        rw [hr]
        simp [hq]
      rw [this]
      simp

/-! ### Consequences of profile validity -/

theorem validateVoterPreferences_spec {voterPrefs alternatives : List String}
    (h : validateVoterPreferences voterPrefs alternatives = true) :
    voterPrefs.length = alternatives.length ∧ voterPrefs.Nodup ∧
      ∀ a ∈ voterPrefs, a ∈ alternatives := by
  unfold validateVoterPreferences at h
  by_cases h1 : voterPrefs.length ≠ alternatives.length
  · rw [if_pos h1] at h; cases h
  · rw [if_neg h1] at h
    by_cases h2 : (jsSetOfList voterPrefs).length ≠ voterPrefs.length
    · rw [if_pos h2] at h; cases h
    · rw [if_neg h2] at h
      by_cases h3 : voterPrefs.any (fun pref => pref = "") = true
      · rw [if_pos h3] at h; cases h
      · rw [if_neg h3] at h
        refine ⟨Classical.not_not.mp h1, nodup_of_jsSetOfList_length
          (Classical.not_not.mp h2), ?_⟩
        intro a ha
        have := List.all_eq_true.mp h a ha
        simpa using this

theorem columnOf_length (preferences : List (List String)) (j : Nat) :
    (columnOf preferences j).length = preferences.length := by
  simp [columnOf]

theorem getCell_eq_columnOf_getD {preferences : List (List String)}
    {rank voter : Nat} (h : rank < preferences.length) :
    getCell preferences rank voter = (columnOf preferences voter).getD rank "" := by
  have hl : preferences.getD rank [] = preferences[rank] := by
    rw [List.getD_eq_getElem?_getD, List.getElem?_eq_getElem h]
    rfl
  have hr : (preferences.map (fun row => row.getD voter "")).getD rank "" =
      preferences[rank].getD voter "" := by
    rw [List.getD_eq_getElem?_getD, List.getElem?_map, List.getElem?_eq_getElem h]
    rfl
  unfold getCell columnOf
  rw [hl, hr]

theorem validProfile_column {preferences : List (List String)}
    {alternatives : List String} (hv : validProfile preferences alternatives)
    {j : Nat} (hj : j < (preferences.headD []).length) :
    preferences.length = alternatives.length ∧
      (columnOf preferences j).Nodup ∧
      (∀ a ∈ columnOf preferences j, a ∈ alternatives) := by
  have hspec := validateVoterPreferences_spec (hv j hj)
  refine ⟨?_, hspec.2.1, hspec.2.2⟩
  rw [← columnOf_length preferences j]
  exact hspec.1

theorem validProfile_column_perm {preferences : List (List String)}
    {alternatives : List String} (hv : validProfile preferences alternatives)
    {j : Nat} (hj : j < (preferences.headD []).length) :
    (columnOf preferences j).Perm alternatives := by
  have hspec := validateVoterPreferences_spec (hv j hj)
  exact (List.subperm_of_subset hspec.2.1 hspec.2.2).perm_of_length_le
    (le_of_eq hspec.1.symm)

/-- The numeric ranking of one voter, as produced by the matrix-to-profile
conversions of the source (entries replaced by their universe indices). -/
def numRow (preferences : List (List String)) (alternatives : List String)
    (voter : Nat) : List Nat :=
  (columnOf preferences voter).map (fun a => altIdxD alternatives a)

theorem range_map_getD {α β : Type} (d : α) (g : α → β) :
    ∀ (l : List α),
      (List.range l.length).map (fun i => g (l.getD i d)) = l.map g := by
  intro l
  induction l with
  | nil => rfl
  | cons x xs ih =>
    rw [List.length_cons, List.range_succ_eq_map, List.map_cons, List.map_map,
      List.map_cons]
    refine congrArg₂ _ rfl ?_
    rw [← ih]
    apply List.map_congr_left
    intro i _
    simp

theorem numRow_total {preferences : List (List String)}
    {alternatives : List String} (hv : validProfile preferences alternatives)
    {voter : Nat} (hvn : voter < (preferences.headD []).length) :
    mapMOpt (fun rank => altToIndexGet alternatives (getCell preferences rank voter))
        (List.range alternatives.length) =
      some (numRow preferences alternatives voter) := by
  have hcol := validProfile_column hv hvn
  have hm : preferences.length = alternatives.length := hcol.1
  have hmem : ∀ rank ∈ List.range alternatives.length,
      getCell preferences rank voter ∈ alternatives := by
    intro rank hrank
    rw [List.mem_range] at hrank
    rw [getCell_eq_columnOf_getD (hm ▸ hrank)]
    refine hcol.2.2 _ (getD_mem_of_lt ?_)
    rw [columnOf_length]
    exact hm ▸ hrank
  rw [mapMOpt_eq_map (g := fun rank => altIdxD alternatives
      (getCell preferences rank voter))
    (fun rank hrank => (altToIndexGet_spec (hmem rank hrank)).1)]
  congr 1
  unfold numRow
  have hlen : alternatives.length = (columnOf preferences voter).length := by
    rw [columnOf_length]
    exact hm.symm
  rw [show (List.range alternatives.length) =
      (List.range (columnOf preferences voter).length) from by rw [← hlen]]
  rw [← range_map_getD (d := "") (g := fun a => altIdxD alternatives a)
    (columnOf preferences voter)]
  apply List.map_congr_left
  intro i hi
  rw [List.mem_range] at hi
  rw [getCell_eq_columnOf_getD]
  rw [hm, hlen]
  exact hi

theorem numRow_nodup {preferences : List (List String)}
    {alternatives : List String} (hv : validProfile preferences alternatives)
    {voter : Nat} (hvn : voter < (preferences.headD []).length) :
    (numRow preferences alternatives voter).Nodup := by
  have hcol := validProfile_column hv hvn
  exact hcol.2.1.map_on (fun a ha b hb hab =>
    altIdxD_inj (hcol.2.2 a ha) (hcol.2.2 b hb) hab)

/-! ### Characterization of the veto-coalition check -/

/-- Voter `voter` ranks `b` strictly above `target`: both occur in the
voter's column and the first occurrence of `b` precedes the first occurrence
of `target` (for a valid column each entry occurs exactly once). -/
def ranksAbove (preferences : List (List String)) (voter : Nat)
    (b target : String) : Prop :=
  ∃ i j, jsIndexOf (columnOf preferences voter) b = some i ∧
    jsIndexOf (columnOf preferences voter) target = some j ∧ i < j

theorem target_rank_exists {preferences : List (List String)}
    {alternatives : List String} (hv : validProfile preferences alternatives)
    {voter : Nat} (hvn : voter < (preferences.headD []).length)
    {target : String} (ht : target ∈ alternatives) :
    ∃ k, jsIndexOf (columnOf preferences voter) target = some k ∧
      jsIndexOf (numRow preferences alternatives voter)
        (altIdxD alternatives target) = some k := by
  have hperm := validProfile_column_perm hv hvn
  have hmemcol : target ∈ columnOf preferences voter := hperm.mem_iff.mpr ht
  obtain ⟨k, hk⟩ := jsIndexOf_isSome_of_mem hmemcol
  refine ⟨k, hk, ?_⟩
  have hget : (columnOf preferences voter)[k]? = some target := jsIndexOf_get? hk
  have hnum : (numRow preferences alternatives voter)[k]? =
      some (altIdxD alternatives target) := by
    unfold numRow
    rw [List.getElem?_map, hget]
    rfl
  exact jsIndexOf_of_nodup_getElem? (numRow_nodup hv hvn) hnum

theorem mem_numRow {preferences : List (List String)}
    {alternatives : List String} (hv : validProfile preferences alternatives)
    {voter : Nat} (hvn : voter < (preferences.headD []).length)
    {i : Nat} (hi : i ∈ numRow preferences alternatives voter) :
    ∃ a ∈ alternatives, i = altIdxD alternatives a ∧
      alternatives.getD i "" = a := by
  unfold numRow at hi
  obtain ⟨a, hacol, rfl⟩ := List.mem_map.mp hi
  have hamem : a ∈ alternatives :=
    (validProfile_column hv hvn).2.2 a hacol
  exact ⟨a, hamem, rfl, (altToIndexGet_spec hamem).2.2⟩

theorem mem_take_numRow_iff {preferences : List (List String)}
    {alternatives : List String} (hv : validProfile preferences alternatives)
    {voter : Nat} (hvn : voter < (preferences.headD []).length)
    {b : String} (hb : b ∈ alternatives) {k : Nat} :
    altIdxD alternatives b ∈ (numRow preferences alternatives voter).take k ↔
      ∃ i, jsIndexOf (columnOf preferences voter) b = some i ∧ i < k := by
  have hnd := (validProfile_column hv hvn).2.1
  have hsub := (validProfile_column hv hvn).2.2
  unfold numRow
  rw [← List.map_take]
  constructor
  · intro h
    obtain ⟨a, hat, haeq⟩ := List.mem_map.mp h
    have hamem : a ∈ alternatives := hsub a (List.mem_of_mem_take hat)
    have hab : a = b := altIdxD_inj hamem hb haeq
    subst hab
    obtain ⟨i, hival⟩ := List.mem_iff_getElem?.mp hat
    rw [List.getElem?_take] at hival
    by_cases hik2 : i < k
    · rw [if_pos hik2] at hival
      exact ⟨i, jsIndexOf_of_nodup_getElem? hnd hival, hik2⟩
    · rw [if_neg hik2] at hival
      cases hival
  · rintro ⟨i, hidx, hik⟩
    have hival : (columnOf preferences voter)[i]? = some b := jsIndexOf_get? hidx
    apply List.mem_map.mpr
    refine ⟨b, ?_, rfl⟩
    rw [List.mem_iff_getElem?]
    refine ⟨i, ?_⟩
    rw [List.getElem?_take, if_pos hik]
    exact hival

theorem ranksAbove_iff_mem_take {preferences : List (List String)}
    {alternatives : List String} (hv : validProfile preferences alternatives)
    {voter : Nat} (hvn : voter < (preferences.headD []).length)
    {b target : String} (hb : b ∈ alternatives) (ht : target ∈ alternatives)
    {k : Nat}
    (hk : jsIndexOf (numRow preferences alternatives voter)
      (altIdxD alternatives target) = some k) :
    (altIdxD alternatives b ∈ (numRow preferences alternatives voter).take k) ↔
      ranksAbove preferences voter b target := by
  obtain ⟨k2, hk2col, hk2num⟩ := target_rank_exists hv hvn ht
  have hkk : k = k2 := by
    rw [hk] at hk2num
    cases hk2num
    rfl
  subst hkk
  rw [mem_take_numRow_iff hv hvn hb]
  unfold ranksAbove
  constructor
  · rintro ⟨i, hi, hik⟩
    exact ⟨i, k, hi, hk2col, hik⟩
  · rintro ⟨i, j, hi, hj, hij⟩
    rw [hk2col] at hj
    cases hj
    exact ⟨i, hi, hij⟩

theorem intersectPreferred_spec {preferences : List (List String)}
    {alternatives : List String} (hv : validProfile preferences alternatives)
    {target : String} (ht : target ∈ alternatives) :
    ∀ (vs : List Nat) (acc : List Nat),
      (∀ v ∈ vs, v < (preferences.headD []).length) →
      ∃ res, intersectPreferred (altIdxD alternatives target)
          (vs.map (numRow preferences alternatives)) acc = some res ∧
        res.Sublist acc ∧
        (∀ x, x ∈ res ↔ x ∈ acc ∧ ∀ v ∈ vs,
          ∃ k, jsIndexOf (numRow preferences alternatives v)
              (altIdxD alternatives target) = some k ∧
            x ∈ (numRow preferences alternatives v).take k) := by
  intro vs
  induction vs with
  | nil =>
    intro acc _
    exact ⟨acc, rfl, List.Sublist.refl acc, by simp⟩
  | cons v vrest ih =>
    intro acc hmem
    have hvn : v < (preferences.headD []).length :=
      hmem v (List.mem_cons_self v vrest)
    obtain ⟨kv, _, hkvnum⟩ := target_rank_exists hv hvn ht
    obtain ⟨res, hrun, hsub, hchar⟩ := ih
      (acc.filter (fun alt =>
        decide (alt ∈ (numRow preferences alternatives v).take kv)))
      (fun w hw => hmem w (List.mem_cons_of_mem v hw))
    refine ⟨res, ?_, ?_, ?_⟩
    · rw [List.map_cons]
      unfold intersectPreferred
      rw [hkvnum]
      exact hrun
    · exact hsub.trans (List.filter_sublist acc)
    · intro x
      rw [hchar x]
      simp only [List.mem_filter, decide_eq_true_eq, List.mem_cons]
      constructor
      · rintro ⟨⟨hacc, htake⟩, hrest⟩
        refine ⟨hacc, ?_⟩
        intro w hw
        rcases hw with rfl | hw
        · exact ⟨kv, hkvnum, htake⟩
        · exact hrest w hw
      · rintro ⟨hacc, hall⟩
        obtain ⟨k, hknum, hktake⟩ := hall v (Or.inl rfl)
        have hkkv : k = kv := by
          rw [hknum] at hkvnum
          cases hkvnum
          rfl
        subst hkkv
        exact ⟨⟨hacc, hktake⟩, fun w hw => hall w (Or.inr hw)⟩

theorem checkVetoCoalition_spec {preferences : List (List String)}
    {alternatives : List String} (hv : validProfile preferences alternatives)
    {target : String} (ht : target ∈ alternatives)
    {coalition : List Nat} (hne : coalition ≠ [])
    (hmem : ∀ v ∈ coalition, v < (preferences.headD []).length) :
    ∃ bIdx : List Nat,
      checkVetoCoalition target coalition preferences alternatives =
        some ⟨canVetoCond alternatives.length (preferences.headD []).length
            coalition.length bIdx.length,
          bIdx.map (fun i => alternatives.getD i "")⟩ ∧
      (bIdx.map (fun i => alternatives.getD i "")).Nodup ∧
      ∀ b, b ∈ bIdx.map (fun i => alternatives.getD i "") ↔
        (b ∈ alternatives ∧
          ∀ v ∈ coalition, ranksAbove preferences v b target) := by
  obtain ⟨v0, vrest, rfl⟩ : ∃ v0 vrest, coalition = v0 :: vrest := by
    cases coalition with
    | nil => exact absurd rfl hne
    | cons a l => exact ⟨a, l, rfl⟩
  have hv0n : v0 < (preferences.headD []).length :=
    hmem v0 (List.mem_cons_self v0 vrest)
  have hprof : mapMOpt (fun voterIndex => mapMOpt (fun rank =>
      altToIndexGet alternatives (getCell preferences rank voterIndex))
      (List.range alternatives.length)) (v0 :: vrest) =
      some ((v0 :: vrest).map (numRow preferences alternatives)) :=
    mapMOpt_eq_map (fun v hv' => numRow_total hv (hmem v hv'))
  have htgt := (altToIndexGet_spec ht).1
  obtain ⟨k0, hk0col, hk0num⟩ := target_rank_exists hv hv0n ht
  have hndrow := numRow_nodup hv hv0n
  have hndtake : ((numRow preferences alternatives v0).take k0).Nodup :=
    (List.take_sublist k0 _).nodup hndrow
  have hset : jsSetOfList ((numRow preferences alternatives v0).take k0) =
      (numRow preferences alternatives v0).take k0 := jsSetOfList_of_nodup hndtake
  obtain ⟨bIdx, hinter, hsubl, hchar⟩ := intersectPreferred_spec hv ht vrest
    ((numRow preferences alternatives v0).take k0)
    (fun w hw => hmem w (List.mem_cons_of_mem v0 hw))
  have hb : ∀ i ∈ bIdx, ∃ a ∈ alternatives, i = altIdxD alternatives a ∧
      alternatives.getD i "" = a := by
    intro i hi
    exact mem_numRow hv hv0n (List.mem_of_mem_take (hsubl.subset hi))
  refine ⟨bIdx, ?_, ?_, ?_⟩
  · simp only [checkVetoCoalition, List.isEmpty_cons, Bool.false_eq_true,
      if_false]
    rw [hprof]
    simp only [List.map_cons, List.headD_cons, List.tail_cons]
    simp only [htgt, hk0num, hset, hinter]
  · have hbnd : bIdx.Nodup := hsubl.nodup hndtake
    apply hbnd.map_on
    intro i hi j hj hij
    obtain ⟨a, _, hia, hga⟩ := hb i hi
    obtain ⟨a2, _, hja, hga2⟩ := hb j hj
    rw [hga, hga2] at hij
    rw [hia, hja, hij]
  · intro b
    rw [List.mem_map]
    constructor
    · rintro ⟨i, hi, rfl⟩
      obtain ⟨a, ha, hia, hga⟩ := hb i hi
      rw [hga]
      refine ⟨ha, ?_⟩
      intro v hv'
      rcases List.mem_cons.mp hv' with rfl | hvr
      · have htake : i ∈ (numRow preferences alternatives v).take k0 :=
          hsubl.subset hi
        rw [hia] at htake
        exact (ranksAbove_iff_mem_take hv hv0n ha ht hk0num).mp htake
      · obtain ⟨k, hknum, hktake⟩ := ((hchar i).mp hi).2 v hvr
        rw [hia] at hktake
        exact (ranksAbove_iff_mem_take hv (hmem v (List.mem_cons_of_mem v0 hvr))
          ha ht hknum).mp hktake
    · rintro ⟨hbmem, hall⟩
      refine ⟨altIdxD alternatives b, ?_, (altToIndexGet_spec hbmem).2.2⟩
      rw [hchar]
      constructor
      · exact (ranksAbove_iff_mem_take hv hv0n hbmem ht hk0num).mpr
          (hall v0 (List.mem_cons_self v0 vrest))
      · intro w hw
        have hwn : w < (preferences.headD []).length :=
          hmem w (List.mem_cons_of_mem v0 hw)
        obtain ⟨kw, _, hkwnum⟩ := target_rank_exists hv hwn ht
        exact ⟨kw, hkwnum, (ranksAbove_iff_mem_take hv hwn hbmem ht hkwnum).mpr
          (hall w (List.mem_cons_of_mem v0 hw))⟩

/-! ### Characterization of the coalition-mask scan -/

theorem maskToCoalition_mem_lt {mask n v : Nat}
    (h : v ∈ maskToCoalition mask n) : v < n :=
  List.mem_range.mp (List.mem_filter.mp h).1

theorem maskToCoalition_ne_nil {mask n : Nat} (h1 : 1 ≤ mask)
    (h2 : mask < 2 ^ n) : maskToCoalition mask n ≠ [] := by
  intro hnil
  have hbit : ∀ v, v < n → mask.testBit v = false := by
    intro v hv
    by_contra htrue
    have hvmem : v ∈ maskToCoalition mask n := by
      unfold maskToCoalition
      refine List.mem_filter.mpr ⟨List.mem_range.mpr hv, ?_⟩
      simpa using htrue
    rw [hnil] at hvmem
    cases hvmem
  have hzero : mask = 0 := by
    apply Nat.eq_of_testBit_eq
    intro i
    rw [Nat.zero_testBit]
    by_cases hi : i < n
    · exact hbit i hi
    · exact Nat.testBit_eq_false_of_lt (lt_of_lt_of_le h2
        (Nat.pow_le_pow_right (by norm_num) (Nat.le_of_not_lt hi)))
  omega

theorem maskToCoalition_all_ones (n : Nat) :
    maskToCoalition (2 ^ n - 1) n = List.range n := by
  unfold maskToCoalition
  apply List.filter_eq_self.mpr
  intro v hv
  rw [Nat.testBit_two_pow_sub_one]
  simpa using List.mem_range.mp hv

theorem mem_scan_range {mask n : Nat} :
    mask ∈ List.range' 1 (2 ^ n - 1) ↔ 1 ≤ mask ∧ mask < 2 ^ n := by
  rw [List.mem_range'_1]
  constructor
  · rintro ⟨h1, h2⟩
    refine ⟨h1, ?_⟩
    have hpow : 1 ≤ 2 ^ n := Nat.one_le_two_pow
    omega
  · rintro ⟨h1, h2⟩
    refine ⟨h1, ?_⟩
    have hpow : 1 ≤ 2 ^ n := Nat.one_le_two_pow
    omega

/-- Whether the scan records the coalition of a given mask: the check
succeeds, passes the veto condition, and has non-empty `B`. -/
def recordingMask (alternative : String) (preferences : List (List String))
    (alternatives : List String) (n : Nat) (coalitionMask : Nat) : Bool :=
  ((checkVetoCoalition alternative (maskToCoalition coalitionMask n)
      preferences alternatives).map
    (fun result => result.canVeto &&
      decide (result.preferredAlternatives.length > 0))).getD false

/-- The `(T, B)` pair the scan stores for a recorded mask. -/
def recordedPair (alternative : String) (preferences : List (List String))
    (alternatives : List String) (n : Nat) (coalitionMask : Nat) :
    List Nat × List String :=
  ((checkVetoCoalition alternative (maskToCoalition coalitionMask n)
      preferences alternatives).map
    (fun result => (maskToCoalition coalitionMask n,
      result.preferredAlternatives))).getD ([], [])

theorem vetoScanStep_none {alternative : String}
    {preferences : List (List String)} {alternatives : List String}
    {n : Nat} (st : List Nat × List String) (mask : Nat)
    (h : checkVetoCoalition alternative (maskToCoalition mask n)
      preferences alternatives = none) :
    vetoScanStep alternative preferences alternatives n st mask = none := by
  unfold vetoScanStep
  rw [h]

theorem vetoScanStep_some {alternative : String}
    {preferences : List (List String)} {alternatives : List String}
    {n : Nat} (st : List Nat × List String) (mask : Nat)
    {result : CheckVetoResult}
    (h : checkVetoCoalition alternative (maskToCoalition mask n)
      preferences alternatives = some result) :
    vetoScanStep alternative preferences alternatives n st mask =
      if result.canVeto && decide (result.preferredAlternatives.length > 0) then
        some (maskToCoalition mask n, result.preferredAlternatives)
      else some st := by
  unfold vetoScanStep
  rw [h]

theorem computeVetoCoalition_char {alternative : String}
    {preferences : List (List String)} {alternatives : List String}
    {r : VetoCoalitionResult}
    (h : computeVetoCoalition alternative preferences alternatives = some r) :
    r.selectedAlternative = alternative ∧
    (r.coalition, r.preferredAlternatives) =
      (((List.range' 1 (2 ^ (preferences.headD []).length - 1)).filter
          (recordingMask alternative preferences alternatives
            (preferences.headD []).length)).getLast?).elim ([], [])
        (recordedPair alternative preferences alternatives
          (preferences.headD []).length) := by
  simp only [computeVetoCoalition] at h
  cases hfold : foldlOpt (vetoScanStep alternative preferences alternatives
      (preferences.headD []).length) ([], [])
      (List.range' 1 (2 ^ (preferences.headD []).length - 1)) with
  | none => rw [hfold] at h; cases h
  | some pair =>
    obtain ⟨bc, bp⟩ := pair
    rw [hfold] at h
    simp only [Option.some.injEq] at h
    have hscan := foldlOpt_scan
      (fun mask => checkVetoCoalition alternative
        (maskToCoalition mask (preferences.headD []).length)
        preferences alternatives)
      (fun result => result.canVeto &&
        decide (result.preferredAlternatives.length > 0))
      (fun mask result => (maskToCoalition mask (preferences.headD []).length,
        result.preferredAlternatives))
      (vetoScanStep alternative preferences alternatives
        (preferences.headD []).length)
      (fun st mask hmask => vetoScanStep_none st mask hmask)
      (fun st mask result hmask => vetoScanStep_some st mask hmask)
      (List.range' 1 (2 ^ (preferences.headD []).length - 1)) ([], []) (bc, bp)
      hfold
    constructor
    · rw [← h]
    · have hcoal : r.coalition = bc := by rw [← h]
      have hpref : r.preferredAlternatives = bp := by rw [← h]
      rw [hcoal, hpref]
      exact hscan.2

theorem checkVetoCoalition_isSome {preferences : List (List String)}
    {alternatives : List String} (hv : validProfile preferences alternatives)
    (target : String) {coalition : List Nat}
    (hmem : ∀ v ∈ coalition, v < (preferences.headD []).length) :
    (checkVetoCoalition target coalition preferences alternatives).isSome := by
  cases hcl : coalition with
  | nil =>
    subst hcl
    unfold checkVetoCoalition
    simp
  | cons v0 vrest =>
    subst hcl
    by_cases ht : target ∈ alternatives
    · obtain ⟨bIdx, heq, _, _⟩ := checkVetoCoalition_spec hv ht
        (List.cons_ne_nil v0 vrest) hmem
      rw [heq]
      rfl
    · have hprof : mapMOpt (fun voterIndex => mapMOpt (fun rank =>
          altToIndexGet alternatives (getCell preferences rank voterIndex))
          (List.range alternatives.length)) (v0 :: vrest) =
          some ((v0 :: vrest).map (numRow preferences alternatives)) :=
        mapMOpt_eq_map (fun v hv' => numRow_total hv (hmem v hv'))
      unfold checkVetoCoalition
      simp only [List.isEmpty_cons, Bool.false_eq_true, if_false]
      simp only [hprof, altToIndexGet_eq_none_of_not_mem ht]
      rfl

theorem computeVetoCoalition_isSome {preferences : List (List String)}
    {alternatives : List String} (hv : validProfile preferences alternatives)
    (target : String) :
    ∃ r, computeVetoCoalition target preferences alternatives = some r := by
  obtain ⟨fin, hfold, -⟩ := foldlOpt_invariant (fun _ => True)
    (vetoScanStep target preferences alternatives (preferences.headD []).length)
    (List.range' 1 (2 ^ (preferences.headD []).length - 1)) ([], []) trivial
    (by
      intro st mask _ _
      obtain ⟨result, hres⟩ := Option.isSome_iff_exists.mp
        (checkVetoCoalition_isSome hv target
          (fun v hv' => maskToCoalition_mem_lt hv'))
      by_cases hc : (result.canVeto &&
          decide (result.preferredAlternatives.length > 0)) = true
      · refine ⟨(maskToCoalition mask (preferences.headD []).length,
          result.preferredAlternatives), ?_, trivial⟩
        rw [vetoScanStep_some st mask hres, if_pos hc]
      · refine ⟨st, ?_, trivial⟩
        rw [vetoScanStep_some st mask hres, if_neg hc])
  obtain ⟨bc, bp⟩ := fin
  have hsome : (computeVetoCoalition target preferences alternatives).isSome := by
    simp only [computeVetoCoalition]
    rw [hfold]
    rfl
  exact Option.isSome_iff_exists.mp hsome

theorem recordingMask_true_iff {alternative : String}
    {preferences : List (List String)} {alternatives : List String}
    {n mask : Nat} :
    recordingMask alternative preferences alternatives n mask = true ↔
      ∃ res, checkVetoCoalition alternative (maskToCoalition mask n)
          preferences alternatives = some res ∧
        res.canVeto = true ∧ res.preferredAlternatives ≠ [] := by
  unfold recordingMask
  cases hc : checkVetoCoalition alternative (maskToCoalition mask n)
      preferences alternatives with
  | none => simp
  | some res =>
    constructor
    · intro h1
      have h2 : (res.canVeto &&
          decide (res.preferredAlternatives.length > 0)) = true := h1
      rw [Bool.and_eq_true, decide_eq_true_eq] at h2
      refine ⟨res, rfl, h2.1, ?_⟩
      intro hnil
      rw [hnil] at h2
      simp at h2
    · rintro ⟨res2, hres2, hcv, hbne⟩
      have hrr : res = res2 := by injection hres2
      subst hrr
      show (res.canVeto && decide (res.preferredAlternatives.length > 0)) = true
      rw [Bool.and_eq_true, decide_eq_true_eq]
      exact ⟨hcv, List.length_pos.mpr hbne⟩

theorem recordedPair_eq {alternative : String}
    {preferences : List (List String)} {alternatives : List String}
    {n mask : Nat} {res : CheckVetoResult}
    (h : checkVetoCoalition alternative (maskToCoalition mask n)
      preferences alternatives = some res) :
    recordedPair alternative preferences alternatives n mask =
      (maskToCoalition mask n, res.preferredAlternatives) := by
  unfold recordedPair
  rw [h]
  rfl

/-- Shared invariant: whatever `computeVetoCoalition` returns, the coalition
list and the preferred set `B` are empty together. -/
theorem vetoResult_empty_iff {alternative : String}
    {preferences : List (List String)} {alternatives : List String}
    {r : VetoCoalitionResult}
    (h : computeVetoCoalition alternative preferences alternatives = some r) :
    (r.coalition = [] ↔ r.preferredAlternatives = []) ∧
      (r.coalition ≠ [] → ∃ res, checkVetoCoalition alternative r.coalition
          preferences alternatives = some res ∧ res.canVeto = true ∧
          res.preferredAlternatives = r.preferredAlternatives) := by
  obtain ⟨-, hpair⟩ := computeVetoCoalition_char h
  cases hlast : ((List.range' 1 (2 ^ (preferences.headD []).length - 1)).filter
      (recordingMask alternative preferences alternatives
        (preferences.headD []).length)).getLast? with
  | none =>
    rw [hlast] at hpair
    simp only [Option.elim] at hpair
    have hc : r.coalition = [] := congrArg Prod.fst hpair
    have hp : r.preferredAlternatives = [] := congrArg Prod.snd hpair
    refine ⟨by simp [hc, hp], ?_⟩
    intro hne
    exact absurd hc hne
  | some mask =>
    rw [hlast] at hpair
    simp only [Option.elim] at hpair
    have hmem : mask ∈ (List.range' 1
        (2 ^ (preferences.headD []).length - 1)).filter
        (recordingMask alternative preferences alternatives
          (preferences.headD []).length) :=
      List.mem_of_getLast?_eq_some hlast
    obtain ⟨hrange, hrec⟩ := List.mem_filter.mp hmem
    obtain ⟨res, hres, hcv, hbne⟩ := recordingMask_true_iff.mp hrec
    rw [recordedPair_eq hres] at hpair
    have hcoal : r.coalition = maskToCoalition mask
        (preferences.headD []).length := congrArg Prod.fst hpair
    have hpref : r.preferredAlternatives = res.preferredAlternatives :=
      congrArg Prod.snd hpair
    have hmaskrange := mem_scan_range.mp hrange
    have hcne : r.coalition ≠ [] := by
      rw [hcoal]
      exact maskToCoalition_ne_nil hmaskrange.1 hmaskrange.2
    have hpne : r.preferredAlternatives ≠ [] := by
      rw [hpref]
      exact hbne
    refine ⟨⟨fun hc => absurd hc hcne, fun hp => absurd hp hpne⟩, ?_⟩
    intro _
    rw [hcoal, hpref]
    exact ⟨res, hres, hcv, rfl⟩

/-- Evaluation of the classifier on a valid profile: the PVC is the sublist
of alternatives whose veto search found an empty preferred set. -/
theorem computePVCClassifier_eq {preferences : List (List String)}
    {alternatives : List String} (hv : validProfile preferences alternatives) :
    computePVCClassifier preferences alternatives =
      some (alternatives.filter (fun a =>
        ((computeVetoCoalition a preferences alternatives).map
          (fun r => !decide (r.preferredAlternatives.length > 0))).getD false)) := by
  unfold computePVCClassifier
  have hrun := foldlOpt_filterAccum
    (fun a => computeVetoCoalition a preferences alternatives)
    (fun r => decide (r.preferredAlternatives.length > 0))
    (classifierStep preferences alternatives)
    (fun st a r h => by
      unfold classifierStep
      rw [show computeVetoCoalition a preferences alternatives = some r from h])
    alternatives []
    (fun a _ => by
      obtain ⟨r, hr⟩ := computeVetoCoalition_isSome hv a
      show (computeVetoCoalition a preferences alternatives).isSome = true
      rw [hr]
      rfl)
  simpa using hrun

/-- C10.  For every target, matrix, and universe, a returned
`VetoCoalitionResult` has a non-empty `coalition` exactly when it has a
non-empty `preferredAlternatives` — the invariant the classifier relies on
when it tests the emptiness of `B` as a proxy for coalition existence. -/
theorem veto_result_coalition_empty_iff_preferred_empty
    (alternative : String) (preferences : List (List String))
    (alternatives : List String) (r : VetoCoalitionResult)
    (h : computeVetoCoalition alternative preferences alternatives = some r) :
    r.coalition = [] ↔ r.preferredAlternatives = [] :=
  (vetoResult_empty_iff h).1

/-- Witness for C10 at a concrete input. -/
theorem veto_result_coalition_empty_iff_preferred_empty_witness :
    (([0] : List Nat) = [] ↔ (["a"] : List String) = []) :=
  veto_result_coalition_empty_iff_preferred_empty "b" [["a"], ["b"]]
    ["a", "b"]
    ⟨[0], "b", ["a"], ⟨1, 1, mkRat 1 1, ["a"], mkRat 1 2⟩⟩ (by decide)

/-- C1.  For a valid profile the veto-based PVC computation succeeds, returns
a subset of the universe, and an alternative of the universe belongs to the
PVC exactly when its veto-coalition search returns an empty coalition. -/
theorem pvc_classifier_subset_and_veto_consistent
    (preferences : List (List String)) (alternatives : List String)
    (hv : validProfile preferences alternatives) :
    ∃ pvc, computePVCClassifier preferences alternatives = some pvc ∧
      pvc ⊆ alternatives ∧
      ∀ a ∈ alternatives, ∃ r,
        computeVetoCoalition a preferences alternatives = some r ∧
        (a ∈ pvc ↔ r.coalition = []) := by
  refine ⟨_, computePVCClassifier_eq hv, ?_, ?_⟩
  · intro a ha
    exact (List.mem_filter.mp ha).1
  · intro a ha
    obtain ⟨r, hr⟩ := computeVetoCoalition_isSome hv a
    refine ⟨r, hr, ?_⟩
    rw [List.mem_filter]
    constructor
    · rintro ⟨-, hcond⟩
      simp only [hr] at hcond
      have hcond2 : (!decide (r.preferredAlternatives.length > 0)) = true :=
        hcond
      rw [Bool.not_eq_true', decide_eq_false_iff_not, Nat.not_lt,
        Nat.le_zero] at hcond2
      exact (vetoResult_empty_iff hr).1.mpr (List.length_eq_zero.mp hcond2)
    · intro hcoal
      refine ⟨ha, ?_⟩
      have hpref : r.preferredAlternatives = [] :=
        (vetoResult_empty_iff hr).1.mp hcoal
      simp [hr, hpref]

/-- Witness for C1 at a concrete valid profile. -/
theorem pvc_classifier_subset_and_veto_consistent_witness :
    ∃ pvc, computePVCClassifier [["a"], ["b"]] ["a", "b"] = some pvc ∧
      pvc ⊆ ["a", "b"] ∧
      ∀ a ∈ ["a", "b"], ∃ r,
        computeVetoCoalition a [["a"], ["b"]] ["a", "b"] = some r ∧
        (a ∈ pvc ↔ r.coalition = []) :=
  pvc_classifier_subset_and_veto_consistent [["a"], ["b"]] ["a", "b"]
    (by unfold validProfile; decide)

/-! ### Degenerate inputs (C4) -/

theorem checkVetoCoalition_empty_universe (a : String)
    (preferences : List (List String)) (coalition : List Nat) :
    checkVetoCoalition a coalition preferences [] = some ⟨false, []⟩ := by
  cases coalition with
  | nil =>
    unfold checkVetoCoalition
    simp
  | cons v vs =>
    unfold checkVetoCoalition
    simp only [List.isEmpty_cons, Bool.false_eq_true, if_false]
    rw [mapMOpt_eq_map (f := fun voterIndex => mapMOpt (fun rank =>
        altToIndexGet ([] : List String) (getCell preferences rank voterIndex))
        (List.range ([] : List String).length))
      (g := fun _ => ([] : List Nat)) (fun w _ => rfl)]
    simp [altToIndexGet_eq_none_of_not_mem (List.not_mem_nil a)]

theorem computeVetoCoalition_empty_universe (a : String)
    (preferences : List (List String)) :
    ∃ r, computeVetoCoalition a preferences [] = some r ∧
      r.coalition = [] ∧ r.preferredAlternatives = [] := by
  obtain ⟨fin, hfold, hfin⟩ := foldlOpt_invariant
    (fun st => st = (([] : List Nat), ([] : List String)))
    (vetoScanStep a preferences [] (preferences.headD []).length)
    (List.range' 1 (2 ^ (preferences.headD []).length - 1)) ([], []) rfl
    (by
      intro st mask _ hst
      refine ⟨st, ?_, hst⟩
      rw [vetoScanStep_some st mask (checkVetoCoalition_empty_universe a
        preferences (maskToCoalition mask (preferences.headD []).length))]
      rfl)
  subst hfin
  have hs : (computeVetoCoalition a preferences []).isSome := by
    simp only [computeVetoCoalition]
    rw [hfold]
    rfl
  obtain ⟨r, hr⟩ := Option.isSome_iff_exists.mp hs
  have hr2 := hr
  simp only [computeVetoCoalition] at hr2
  rw [hfold] at hr2
  injection hr2 with hr3
  exact ⟨r, hr, by rw [← hr3], by rw [← hr3]⟩

/-- C4 counterexample.  With one alternative and zero voters the veto-based
classifier returns the whole universe `["a"]`, not the empty PVC the claim
requires. -/
theorem degenerate_input_counterexample :
    computePVCClassifier [[]] ["a"] = some ["a"] ∧
      (["a"] : List String) ≠ [] := by
  constructor
  · decide
  · decide

/-- C4 as amended.  On degenerate input (`m = 0` or `n = 0`) nothing raises
an error: both successive-elimination computations return the empty set, the
veto-coalition search finds no coalition for any target (the returned
coalition and `B` are empty), but the veto-based classifier returns the
whole universe — every alternative counts as non-vetoable — rather than an
empty PVC. -/
theorem degenerate_input_behavior (preferences : List (List String))
    (alternatives : List String) (a : String)
    (h : alternatives = [] ∨ (preferences.headD []).length = 0) :
    computePVC preferences alternatives = some [] ∧
    computePVCLib preferences alternatives = some [] ∧
    (∃ r, computeVetoCoalition a preferences alternatives = some r ∧
      r.coalition = [] ∧ r.preferredAlternatives = []) ∧
    computePVCClassifier preferences alternatives = some alternatives := by
  have hcond : alternatives.length = 0 ∨ (preferences.headD []).length = 0 := by
    rcases h with rfl | hn
    · exact Or.inl rfl
    · exact Or.inr hn
  refine ⟨?_, ?_, ?_, ?_⟩
  · simp only [computePVC]
    rw [if_pos hcond]
  · simp only [computePVCLib]
    rw [if_pos hcond]
  · rcases h with rfl | hn
    · exact computeVetoCoalition_empty_universe a preferences
    · have hv : validProfile preferences alternatives := by
        intro j hj
        rw [hn] at hj
        omega
      obtain ⟨r, hr⟩ := computeVetoCoalition_isSome hv a
      obtain ⟨-, hpair⟩ := computeVetoCoalition_char hr
      rw [hn] at hpair
      have hmask : (List.range' 1 (2 ^ 0 - 1) : List Nat) = [] := rfl
      rw [hmask] at hpair
      simp only [List.filter_nil, List.getLast?_nil, Option.elim] at hpair
      exact ⟨r, hr, congrArg Prod.fst hpair, congrArg Prod.snd hpair⟩
  · rcases h with rfl | hn
    · rfl
    · have hv : validProfile preferences alternatives := by
        intro j hj
        rw [hn] at hj
        omega
      rw [computePVCClassifier_eq hv]
      congr 1
      apply List.filter_eq_self.mpr
      intro a2 _
      obtain ⟨r, hr⟩ := computeVetoCoalition_isSome hv a2
      obtain ⟨-, hpair⟩ := computeVetoCoalition_char hr
      rw [hn] at hpair
      have hmask : (List.range' 1 (2 ^ 0 - 1) : List Nat) = [] := rfl
      rw [hmask] at hpair
      simp only [List.filter_nil, List.getLast?_nil, Option.elim] at hpair
      have hpref : r.preferredAlternatives = [] := congrArg Prod.snd hpair
      simp [hr, hpref]

/-- Witness for the amended C4 at a concrete degenerate input. -/
theorem degenerate_input_behavior_witness :
    computePVC [[]] ["a"] = some [] ∧
    computePVCLib [[]] ["a"] = some [] ∧
    (∃ r, computeVetoCoalition "a" [[]] ["a"] = some r ∧
      r.coalition = [] ∧ r.preferredAlternatives = []) ∧
    computePVCClassifier [[]] ["a"] = some ["a"] :=
  degenerate_input_behavior [[]] ["a"] "a" (Or.inr rfl)

/-! ### Unknown alternatives and invalid rankings (C6, C7) -/

/-- C6 counterexample.  On a matrix containing the unknown alternative "c",
the part_000 successive-elimination computation fails its assertion (modelled
by `none`, i.e. it throws) instead of returning an empty result; only the
older `src/lib/pvc.ts` revision returns the empty result. -/
theorem unknown_alternative_counterexample :
    computePVC [["a"], ["c"]] ["a", "b"] = none ∧
      computePVCLib [["a"], ["c"]] ["a", "b"] = some [] := by
  constructor
  · decide
  · decide

/-- C6 as amended.  When a scanned cell of a non-degenerate matrix does not
map to a known index, the `src/lib/pvc.ts` successive-elimination computation
returns the empty result without throwing, while the part_000 revision fails
its conversion assertion (an exception, modelled by `none`). -/
theorem unknown_alternative_behavior (preferences : List (List String))
    (alternatives : List String)
    (hm : alternatives.length ≠ 0) (hn : (preferences.headD []).length ≠ 0)
    (hbad : ∃ voter < (preferences.headD []).length,
      ∃ rank < alternatives.length,
        getCell preferences rank voter ∉ alternatives) :
    computePVC preferences alternatives = none ∧
    computePVCLib preferences alternatives = some [] := by
  have hbuild : buildNumericProfile preferences alternatives
      alternatives.length (preferences.headD []).length = none := by
    unfold buildNumericProfile
    obtain ⟨voter, hv, rank, hrk, hbad2⟩ := hbad
    apply mapMOpt_eq_none
    refine ⟨voter, List.mem_range.mpr hv, ?_⟩
    apply mapMOpt_eq_none
    refine ⟨rank, List.mem_range.mpr hrk, ?_⟩
    exact altToIndexGet_eq_none_of_not_mem hbad2
  have hcond : ¬(alternatives.length = 0 ∨
      (preferences.headD []).length = 0) := by
    push_neg
    exact ⟨hm, hn⟩
  constructor
  · simp only [computePVC]
    rw [if_neg hcond, hbuild]
  · simp only [computePVCLib]
    rw [if_neg hcond, hbuild]

/-- Witness for the amended C6 at the concrete input of the counterexample. -/
theorem unknown_alternative_behavior_witness :
    computePVC [["a"], ["c"]] ["a", "b"] = none ∧
    computePVCLib [["a"], ["c"]] ["a", "b"] = some [] :=
  unknown_alternative_behavior [["a"], ["c"]] ["a", "b"] (by decide) (by decide)
    ⟨0, by decide, 1, by decide, by decide⟩

/-- C7 counterexample.  The ranking `["a", "a"]` over universe
`["a", "b"]` (missing "b", duplicating "a") makes the validator return
false, yet neither PVC computation refuses: the classifier returns the whole
universe and the successive elimination returns `["b"]`, silently dropping
the duplicated unanimous favourite. -/
theorem invalid_ranking_counterexample :
    validateVoterPreferences ["a", "a"] ["a", "b"] = false ∧
    computePVCClassifier [["a"], ["a"]] ["a", "b"] = some ["a", "b"] ∧
    computePVC [["a"], ["a"]] ["a", "b"] = some ["b"] := by
  refine ⟨?_, ?_, ?_⟩
  · decide
  · decide
  · decide

/-- C7 as amended.  Any ranking with a repeated entry (in particular one
that omits an alternative and duplicates another) makes
`validateVoterPreferences` return false; but the PVC computations never
consult the validator, and on the concrete profile containing the invalid
ranking `["a", "a"]` they return ordinary non-refusing answers. -/
theorem invalid_ranking_behavior (voterPrefs alternatives : List String)
    (hdup : ¬ voterPrefs.Nodup) :
    validateVoterPreferences voterPrefs alternatives = false ∧
    computePVCClassifier [["a"], ["a"]] ["a", "b"] = some ["a", "b"] ∧
    computePVC [["a"], ["a"]] ["a", "b"] = some ["b"] := by
  refine ⟨?_, by decide, by decide⟩
  by_contra hne
  have htrue : validateVoterPreferences voterPrefs alternatives = true := by
    cases h : validateVoterPreferences voterPrefs alternatives with
    | false => exact absurd h hne
    | true => rfl
  exact hdup (validateVoterPreferences_spec htrue).2.1

/-- Witness for the amended C7 at the ranking of the counterexample. -/
theorem invalid_ranking_behavior_witness :
    validateVoterPreferences ["a", "a"] ["a", "b"] = false ∧
    computePVCClassifier [["a"], ["a"]] ["a", "b"] = some ["a", "b"] ∧
    computePVC [["a"], ["a"]] ["a", "b"] = some ["b"] :=
  invalid_ranking_behavior ["a", "a"] ["a", "b"] (by decide)

/-! ### The tolerance comparison over the rationals (C2, C9) -/

theorem areNumbersApproximatelyEqual_iff (num1 num2 : ℚ) :
    areNumbersApproximatelyEqual num1 num2 = true ↔
      |num1 - num2| < jsEpsilon := by
  have hd1 : ((num1.den : ℚ)) ≠ 0 := Nat.cast_ne_zero.mpr num1.den_nz
  have hd2 : ((num2.den : ℚ)) ≠ 0 := Nat.cast_ne_zero.mpr num2.den_nz
  have hdiv := div_sub_div (num1.num : ℚ) (num2.num : ℚ) hd1 hd2
  rw [Rat.num_div_den num1, Rat.num_div_den num2] at hdiv
  unfold areNumbersApproximatelyEqual jsEpsilon
  rw [decide_eq_true_eq]
  have hdpos : (0 : ℚ) < (num1.den : ℚ) * (num2.den : ℚ) := by
    have h1 : 0 < num1.den := num1.pos
    have h2 : 0 < num2.den := num2.pos
    have h1q : (0 : ℚ) < num1.den := by exact_mod_cast h1
    have h2q : (0 : ℚ) < num2.den := by exact_mod_cast h2
    exact mul_pos h1q h2q
  rw [hdiv, abs_div, abs_of_pos hdpos, div_lt_div_iff₀ hdpos (by positivity),
    one_mul]
  have habs : |(num1.num : ℚ) * (num2.den : ℚ) - (num1.den : ℚ) * (num2.num : ℚ)| =
      (((num1.num * num2.den - num2.num * num1.den).natAbs : ℕ) : ℚ) := by
    rw [Int.cast_natAbs]
    push_cast
    ring_nf
  rw [habs]
  constructor
  · intro h
    exact_mod_cast h
  · intro h
    exact_mod_cast h

theorem canVetoCond_iff (m n tSize bSize : Nat) :
    canVetoCond m n tSize bSize = true ↔
      ((tSize : ℚ) * ((m : ℚ) - 1) / (n : ℚ) > (m : ℚ) - (bSize : ℚ) ∨
        |(tSize : ℚ) * ((m : ℚ) - 1) / (n : ℚ) - ((m : ℚ) - (bSize : ℚ))| <
          jsEpsilon) := by
  simp only [canVetoCond]
  rw [Bool.or_eq_true, decide_eq_true_eq, areNumbersApproximatelyEqual_iff]
  have h1 : (mkRat ((tSize : Int) * ((m : Int) - 1)) n : ℚ) =
      (tSize : ℚ) * ((m : ℚ) - 1) / (n : ℚ) := by
    rw [Rat.mkRat_eq_divInt, Rat.divInt_eq_div]
    push_cast
    ring
  have h2 : (mkRat ((m : Int) - (bSize : Int)) 1 : ℚ) =
      (m : ℚ) - (bSize : ℚ) := by
    rw [Rat.mkRat_one]
    push_cast
    ring
  rw [h1, h2]

theorem tolerance_ge_mono {vp vp2 vs vs2 : ℚ} (h1 : vp ≤ vp2) (h2 : vs2 ≤ vs)
    (h : vp > vs ∨ |vp - vs| < jsEpsilon) :
    vp2 > vs2 ∨ |vp2 - vs2| < jsEpsilon := by
  rcases h with h | h
  · exact Or.inl (lt_of_le_of_lt h2 (lt_of_lt_of_le h h1))
  · by_cases hgt : vp2 > vs2
    · exact Or.inl hgt
    · right
      push_neg at hgt
      rw [abs_sub_comm, abs_of_nonneg (sub_nonneg.mpr hgt)]
      have hle : vs - vp ≤ |vp - vs| := by
        rw [abs_sub_comm]
        exact le_abs_self _
      linarith

/-- C9 counterexample.  Shrinking `|B|` does not decrease the veto size:
with `m = 2` it raises it from 1 to 2, and the coalition `|T| = 1`, `n = 1`
that passes the veto condition at `|B| = 1` fails it at the smaller
`|B| = 0` — the claim's implication is false as stated. -/
theorem veto_condition_shrink_counterexample :
    canVetoCond 2 1 1 1 = true ∧ canVetoCond 2 1 1 0 = false ∧
      (2 - 0 : Int) > 2 - 1 := by
  refine ⟨?_, ?_, ?_⟩
  · decide
  · decide
  · decide

/-- C9 as amended.  Enlarging `|B|` (more alternatives preferred over the
target) can only decrease the veto size `m - |B|`, making the veto easier:
a coalition satisfying the tolerance-aware veto condition with a smaller `B`
still satisfies it with a larger `B` and an equal or greater coalition
size. -/
theorem veto_condition_monotone (m n tSize tSize2 bSize bSize2 : Nat)
    (hm : 1 ≤ m) (ht : tSize ≤ tSize2) (hb : bSize ≤ bSize2)
    (h : canVetoCond m n tSize bSize = true) :
    canVetoCond m n tSize2 bSize2 = true := by
  rw [canVetoCond_iff] at h ⊢
  apply tolerance_ge_mono ?_ ?_ h
  · by_cases hn : (n : ℚ) = 0
    · rw [hn, div_zero, div_zero]
    · have hnpos : (0 : ℚ) < n :=
        lt_of_le_of_ne (Nat.cast_nonneg n) (Ne.symm hn)
      have hm1 : (0 : ℚ) ≤ (m : ℚ) - 1 := by
        have hq : (1 : ℚ) ≤ m := by exact_mod_cast hm
        linarith
      have htq : (tSize : ℚ) ≤ tSize2 := by exact_mod_cast ht
      have hmul : (tSize : ℚ) * ((m : ℚ) - 1) ≤ (tSize2 : ℚ) * ((m : ℚ) - 1) :=
        mul_le_mul_of_nonneg_right htq hm1
      exact (div_le_div_iff_of_pos_right hnpos).mpr hmul
  · have hbq : (bSize : ℚ) ≤ bSize2 := by exact_mod_cast hb
    linarith

/-- Witness for the amended C9: a boundary-tie coalition keeps passing after
`B` grows. -/
theorem veto_condition_monotone_witness :
    canVetoCond 3 2 2 2 = true :=
  veto_condition_monotone 3 2 2 2 1 2 (by decide) (by decide) (by decide)
    (by decide)

/-- C2.  For a valid profile, a non-empty coalition of voters, and a target
in the universe: the check judges the coalition a valid veto coalition
exactly when `|T|*(m-1)/n ≥ m - |B|` holds under the tolerance-aware
comparison (strictly greater, or equal within `Number.EPSILON`), where `B`
is the set of alternatives every coalition member ranks strictly above the
target; and the scan records a coalition only when additionally `|B| > 0`
together with a passing check. -/
theorem veto_condition_and_recording (preferences : List (List String))
    (alternatives : List String) (hv : validProfile preferences alternatives)
    (target : String) (ht : target ∈ alternatives)
    (coalition : List Nat) (hne : coalition ≠ [])
    (hmem : ∀ v ∈ coalition, v < (preferences.headD []).length) :
    ∃ res, checkVetoCoalition target coalition preferences alternatives =
        some res ∧
      (res.canVeto = true ↔
        ((coalition.length : ℚ) * ((alternatives.length : ℚ) - 1) /
            (((preferences.headD []).length : ℚ)) >
          (alternatives.length : ℚ) -
            (res.preferredAlternatives.length : ℚ) ∨
        |(coalition.length : ℚ) * ((alternatives.length : ℚ) - 1) /
            (((preferences.headD []).length : ℚ)) -
          ((alternatives.length : ℚ) -
            (res.preferredAlternatives.length : ℚ))| < jsEpsilon)) ∧
      (∀ b, b ∈ res.preferredAlternatives ↔ b ∈ alternatives ∧
        ∀ v ∈ coalition, ranksAbove preferences v b target) ∧
      (∀ r, computeVetoCoalition target preferences alternatives = some r →
        r.coalition ≠ [] →
          r.preferredAlternatives ≠ [] ∧
          ∃ res2, checkVetoCoalition target r.coalition preferences
              alternatives = some res2 ∧ res2.canVeto = true) := by
  obtain ⟨bIdx, heq, hnd, hmemchar⟩ := checkVetoCoalition_spec hv ht hne hmem
  refine ⟨_, heq, ?_, hmemchar, ?_⟩
  · show canVetoCond alternatives.length (preferences.headD []).length
        coalition.length bIdx.length = true ↔ _
    rw [canVetoCond_iff]
    rw [show (CheckVetoResult.mk (canVetoCond alternatives.length
        (preferences.headD []).length coalition.length bIdx.length)
        (bIdx.map (fun i => alternatives.getD i ""))).preferredAlternatives.length
        = bIdx.length from by simp]
  · intro r hr hcne
    obtain ⟨hiff, hrec⟩ := vetoResult_empty_iff hr
    refine ⟨fun hp => hcne (hiff.mpr hp), ?_⟩
    obtain ⟨res2, hres2, hcv, -⟩ := hrec hcne
    exact ⟨res2, hres2, hcv⟩

/-- Witness for C2: the grand coalition of two identical voters against the
bottom-ranked alternative. -/
theorem veto_condition_and_recording_witness :
    ∃ res, checkVetoCoalition "b" [0, 1] [["a", "a"], ["b", "b"]]
        ["a", "b"] = some res ∧
      (res.canVeto = true ↔
        (((2 : ℚ)) * ((2 : ℚ) - 1) / ((2 : ℚ)) >
          (2 : ℚ) - (res.preferredAlternatives.length : ℚ) ∨
        |((2 : ℚ)) * ((2 : ℚ) - 1) / ((2 : ℚ)) -
          ((2 : ℚ) - (res.preferredAlternatives.length : ℚ))| < jsEpsilon)) ∧
      (∀ b, b ∈ res.preferredAlternatives ↔ b ∈ ["a", "b"] ∧
        ∀ v ∈ [0, 1], ranksAbove [["a", "a"], ["b", "b"]] v b "b") ∧
      (∀ r, computeVetoCoalition "b" [["a", "a"], ["b", "b"]] ["a", "b"] =
          some r → r.coalition ≠ [] →
          r.preferredAlternatives ≠ [] ∧
          ∃ res2, checkVetoCoalition "b" r.coalition
              [["a", "a"], ["b", "b"]] ["a", "b"] = some res2 ∧
            res2.canVeto = true) :=
  veto_condition_and_recording [["a", "a"], ["b", "b"]] ["a", "b"]
    (by unfold validProfile; decide) "b" (by decide) [0, 1] (by decide)
    (by decide)

/-! ### Identical rankings (C3) -/

theorem mem_take_iff_jsIndexOf {α : Type} [DecidableEq α] {l : List α}
    (hnd : l.Nodup) {b : α} {k : Nat} :
    b ∈ l.take k ↔ ∃ i, jsIndexOf l b = some i ∧ i < k := by
  constructor
  · intro h
    obtain ⟨i, hival⟩ := List.mem_iff_getElem?.mp h
    rw [List.getElem?_take] at hival
    by_cases hik : i < k
    · rw [if_pos hik] at hival
      exact ⟨i, jsIndexOf_of_nodup_getElem? hnd hival, hik⟩
    · rw [if_neg hik] at hival
      cases hival
  · rintro ⟨i, hidx, hik⟩
    rw [List.mem_iff_getElem?]
    refine ⟨i, ?_⟩
    rw [List.getElem?_take, if_pos hik]
    exact jsIndexOf_get? hidx

theorem filter_eq_singleton_of_unique {α : Type} {l : List α} {x : α}
    {p : α → Bool} (hnd : l.Nodup) (hx : x ∈ l)
    (hp : ∀ a ∈ l, (p a = true ↔ a = x)) : l.filter p = [x] := by
  induction l with
  | nil => cases hx
  | cons y ys ih =>
    rcases List.mem_cons.mp hx with heq | hxs
    · subst heq
      rw [List.filter_cons_of_pos ((hp x (List.mem_cons_self x ys)).mpr rfl)]
      have hnil : ys.filter p = [] := by
        rw [List.filter_eq_nil_iff]
        intro a ha hpa
        have : a = x := (hp a (List.mem_cons_of_mem x ha)).mp hpa
        subst this
        exact (List.nodup_cons.mp hnd).1 ha
      rw [hnil]
    · have hyx : y ≠ x := by
        rintro rfl
        exact (List.nodup_cons.mp hnd).1 hxs
      rw [List.filter_cons_of_neg]
      · exact ih (List.nodup_cons.mp hnd).2 hxs
          (fun a ha => hp a (List.mem_cons_of_mem y ha))
      · intro hpy
        exact hyx ((hp y (List.mem_cons_self y ys)).mp (by simpa using hpy))

theorem identical_profile_column {r : List String} {n j : Nat} (hj : j < n) :
    columnOf (r.map (fun a => List.replicate n a)) j = r := by
  unfold columnOf
  rw [List.map_map]
  have : ∀ a ∈ r, (List.replicate n a).getD j "" = a := by
    intro a _
    rw [List.getD_eq_getElem?_getD, List.getElem?_replicate, if_pos hj]
    rfl
  calc r.map ((fun row => row.getD j "") ∘ fun a => List.replicate n a)
      = r.map id := List.map_congr_left (fun a ha => this a ha)
    _ = r := List.map_id r

theorem identical_profile_valid {alternatives r : List String} {n : Nat}
    (halts : alternatives.Nodup) (hblank : "" ∉ alternatives)
    (hperm : r.Perm alternatives) :
    validProfile (r.map (fun a => List.replicate n a)) alternatives := by
  intro j hj
  have hjn : j < n := by
    by_contra hge
    have hn0 : ((r.map (fun a => List.replicate n a)).headD []).length ≤ j := by
      cases hr : r with
      | nil => simp [hr]
      | cons r0 rtail =>
        simp only [hr, List.map_cons, List.headD_cons, List.length_replicate]
        omega
    omega
  rw [identical_profile_column hjn]
  have hrnd : r.Nodup := hperm.nodup_iff.mpr halts
  unfold validateVoterPreferences
  rw [if_neg (by
    rw [Classical.not_not]
    exact hperm.length_eq)]
  rw [if_neg (by
    rw [Classical.not_not]
    rw [jsSetOfList_of_nodup hrnd])]
  rw [if_neg (by
    rw [Bool.not_eq_true, List.any_eq_false]
    intro a ha hpa
    have hpa2 : decide (a = "") = true := hpa
    rw [decide_eq_true_eq] at hpa2
    rw [hpa2] at ha
    exact hblank (hperm.subset ha))]
  rw [List.all_eq_true]
  intro a ha
  show decide (a ∈ alternatives) = true
  rw [decide_eq_true_eq]
  exact hperm.subset ha

theorem identical_profile_head {r : List String} {n : Nat} (hr : r ≠ []) :
    ((r.map (fun x => List.replicate n x)).headD []).length = n := by
  cases r with
  | nil => exact absurd rfl hr
  | cons r0 rtail => simp

theorem identical_profile_check {alternatives r : List String} {n : Nat}
    (halts : alternatives.Nodup) (hblank : "" ∉ alternatives)
    (hperm : r.Perm alternatives) {a : String} (ha : a ∈ alternatives)
    {ka : Nat} (hka : jsIndexOf r a = some ka)
    {coalition : List Nat} (hne : coalition ≠ [])
    (hmem : ∀ v ∈ coalition, v < n) :
    ∃ res, checkVetoCoalition a coalition
        (r.map (fun x => List.replicate n x)) alternatives = some res ∧
      res.canVeto = canVetoCond alternatives.length n coalition.length ka ∧
      res.preferredAlternatives.length = ka := by
  have hv := identical_profile_valid (n := n) halts hblank hperm
  have hrnd : r.Nodup := hperm.nodup_iff.mpr halts
  have hrne : r ≠ [] := by
    intro h
    rw [h] at hka
    cases hka
  have hhead := identical_profile_head (n := n) hrne
  have hmem2 : ∀ v ∈ coalition,
      v < ((r.map (fun x => List.replicate n x)).headD []).length := by
    rw [hhead]
    exact hmem
  obtain ⟨bIdx, heq, hnd, hmemchar⟩ := checkVetoCoalition_spec hv ha hne hmem2
  have hchar2 : ∀ b, b ∈ bIdx.map (fun i => alternatives.getD i "") ↔
      b ∈ r.take ka := by
    intro b
    rw [hmemchar b]
    constructor
    · rintro ⟨hbalts, hall⟩
      obtain ⟨v0, hv0⟩ : ∃ v, v ∈ coalition := by
        cases coalition with
        | nil => exact absurd rfl hne
        | cons c cs => exact ⟨c, List.mem_cons_self c cs⟩
      have hra := hall v0 hv0
      unfold ranksAbove at hra
      rw [identical_profile_column (hmem v0 hv0)] at hra
      obtain ⟨i, j, hib, hja, hij⟩ := hra
      rw [hka] at hja
      injection hja with hja2
      subst hja2
      exact (mem_take_iff_jsIndexOf hrnd).mpr ⟨i, hib, hij⟩
    · intro htake
      obtain ⟨i, hib, hik⟩ := (mem_take_iff_jsIndexOf hrnd).mp htake
      refine ⟨hperm.subset (List.mem_of_mem_take htake), ?_⟩
      intro v hv'
      unfold ranksAbove
      rw [identical_profile_column (hmem v hv')]
      exact ⟨i, ka, hib, hka, hik⟩
  have htknd : (r.take ka).Nodup := (List.take_sublist _ _).nodup hrnd
  have hperm2 : (bIdx.map (fun i => alternatives.getD i "")).Perm
      (r.take ka) :=
    (List.subperm_of_subset hnd (fun b hb => (hchar2 b).mp hb)).antisymm
      (List.subperm_of_subset htknd (fun b hb => (hchar2 b).mpr hb))
  have hkalt : ka < r.length := by
    have hget := jsIndexOf_get? hka
    by_contra hge
    rw [List.getElem?_eq_none (le_of_not_lt hge)] at hget
    cases hget
  have hlen : (bIdx.map (fun i => alternatives.getD i "")).length = ka := by
    rw [hperm2.length_eq, List.length_take]
    omega
  have hlen2 : bIdx.length = ka := by
    rw [← List.length_map bIdx (fun i => alternatives.getD i "")]
    exact hlen
  rw [hhead] at heq
  refine ⟨⟨canVetoCond alternatives.length n coalition.length bIdx.length,
    bIdx.map (fun i => alternatives.getD i "")⟩, heq, ?_, ?_⟩
  · show canVetoCond alternatives.length n coalition.length bIdx.length =
      canVetoCond alternatives.length n coalition.length ka
    rw [hlen2]
  · exact hlen

/-- C3.  On a profile in which every voter holds the identical ranking `r`
over the universe, the veto-based PVC computation returns exactly the
singleton containing the top-ranked alternative, for every `m ≥ 1` and
`n ≥ 1`. -/
theorem identical_rankings_pvc_singleton (alternatives r : List String)
    (n : Nat) (halts : alternatives.Nodup) (hblank : "" ∉ alternatives)
    (hperm : r.Perm alternatives) (hm : 0 < alternatives.length)
    (hn : 0 < n) :
    computePVCClassifier (r.map (fun x => List.replicate n x)) alternatives =
      some [r.headD ""] := by
  have hv := identical_profile_valid (n := n) halts hblank hperm
  have hrlen : r.length = alternatives.length := hperm.length_eq
  have hrnd : r.Nodup := hperm.nodup_iff.mpr halts
  have hrne : r ≠ [] := by
    intro h
    rw [h] at hrlen
    simp at hrlen
    omega
  have hhead := identical_profile_head (n := n) hrne
  have hr0 : r.headD "" ∈ r := by
    cases r with
    | nil => exact absurd rfl hrne
    | cons r0 rtail => exact List.mem_cons_self r0 rtail
  have hidx0 : jsIndexOf r (r.headD "") = some 0 := by
    cases r with
    | nil => exact absurd rfl hrne
    | cons r0 rtail => simp [jsIndexOf]
  rw [computePVCClassifier_eq hv]
  rw [filter_eq_singleton_of_unique halts (hperm.subset hr0) ?keep]
  case keep =>
  intro a ha
  have har : a ∈ r := hperm.mem_iff.mpr ha
  obtain ⟨ka, hka⟩ := jsIndexOf_isSome_of_mem har
  obtain ⟨ra, hra⟩ := computeVetoCoalition_isSome hv a
  show ((computeVetoCoalition a (r.map (fun x => List.replicate n x))
      alternatives).map
    (fun res => !decide (res.preferredAlternatives.length > 0))).getD false =
      true ↔ a = r.headD ""
  have hkeepval : ((computeVetoCoalition a
      (r.map (fun x => List.replicate n x)) alternatives).map
      (fun res => !decide (res.preferredAlternatives.length > 0))).getD false =
      !decide (ra.preferredAlternatives.length > 0) := by
    rw [hra]
    rfl
  rw [hkeepval]
  obtain ⟨-, hpair⟩ := computeVetoCoalition_char hra
  rw [hhead] at hpair
  by_cases hka0 : ka = 0
  · subst hka0
    have haeq : a = r.headD "" := by
      have hget := jsIndexOf_get? hka
      cases r with
      | nil => exact absurd rfl hrne
      | cons r0 rtail =>
        simp at hget
        rw [hget]
        rfl
    have hfilnil : (List.range' 1 (2 ^ n - 1)).filter
        (recordingMask a (r.map (fun x => List.replicate n x))
          alternatives n) = [] := by
      rw [List.filter_eq_nil_iff]
      intro mask hmask hrec
      obtain ⟨res, hres, hcvt, hbne⟩ := recordingMask_true_iff.mp
        (by simpa using hrec)
      have hrange := mem_scan_range.mp hmask
      have hcne := maskToCoalition_ne_nil hrange.1 hrange.2
      obtain ⟨res2, hres2, -, hlenz⟩ := identical_profile_check halts hblank
        hperm ha hka hcne (fun v hv' => maskToCoalition_mem_lt hv')
      rw [hres] at hres2
      injection hres2 with hres3
      rw [← hres3] at hlenz
      exact hbne (List.length_eq_zero.mp hlenz)
    rw [hfilnil] at hpair
    simp only [List.getLast?_nil, Option.elim] at hpair
    have hpref : ra.preferredAlternatives = [] := congrArg Prod.snd hpair
    rw [hpref]
    simp [haeq]
  · have hane : a ≠ r.headD "" := by
      intro heq
      rw [heq, hidx0] at hka
      injection hka with hka2
      exact hka0 hka2.symm
    have hgmrange : (2 ^ n - 1) ∈ List.range' 1 (2 ^ n - 1) := by
      rw [mem_scan_range]
      have h2 : 2 ^ 1 ≤ 2 ^ n := Nat.pow_le_pow_right (by norm_num) hn
      constructor
      · omega
      · have : 1 ≤ 2 ^ n := Nat.one_le_two_pow
        omega
    have hgne := maskToCoalition_ne_nil (mem_scan_range.mp hgmrange).1
      (mem_scan_range.mp hgmrange).2
    obtain ⟨resg, hresg, hcvg, hleng⟩ := identical_profile_check halts hblank
      hperm ha hka hgne (fun v hv' => maskToCoalition_mem_lt hv')
    have hcoallen : (maskToCoalition (2 ^ n - 1) n).length = n := by
      rw [maskToCoalition_all_ones]
      exact List.length_range n
    have hcvtrue : canVetoCond alternatives.length n n ka = true := by
      rw [canVetoCond_iff]
      have hnq : ((n : ℚ)) ≠ 0 := Nat.cast_ne_zero.mpr (by omega)
      have hvp : (n : ℚ) * ((alternatives.length : ℚ) - 1) / (n : ℚ) =
          (alternatives.length : ℚ) - 1 := by
        field_simp
      rw [hvp]
      by_cases hka1 : ka = 1
      · right
        rw [hka1]
        have hzero : (alternatives.length : ℚ) - 1 -
            ((alternatives.length : ℚ) - ((1 : Nat) : ℚ)) = 0 := by
          push_cast
          ring
        rw [hzero, abs_zero]
        unfold jsEpsilon
        positivity
      · left
        have hka2 : (1 : ℚ) < ka := by
          exact_mod_cast (by omega : 1 < ka)
        linarith
    have hrecg : recordingMask a (r.map (fun x => List.replicate n x))
        alternatives n (2 ^ n - 1) = true := by
      rw [recordingMask_true_iff]
      refine ⟨resg, hresg, ?_, ?_⟩
      · rw [hcvg, hcoallen]
        exact hcvtrue
      · intro hnil
        rw [hnil] at hleng
        simp at hleng
        omega
    have hgmem : (2 ^ n - 1) ∈ (List.range' 1 (2 ^ n - 1)).filter
        (recordingMask a (r.map (fun x => List.replicate n x))
          alternatives n) :=
      List.mem_filter.mpr ⟨hgmrange, hrecg⟩
    cases hlast : ((List.range' 1 (2 ^ n - 1)).filter
        (recordingMask a (r.map (fun x => List.replicate n x))
          alternatives n)).getLast? with
    | none =>
      rw [List.getLast?_eq_none_iff] at hlast
      rw [hlast] at hgmem
      cases hgmem
    | some mk =>
      rw [hlast] at hpair
      simp only [Option.elim] at hpair
      have hmkmem := List.mem_of_getLast?_eq_some hlast
      obtain ⟨hmkrange, hmkrec⟩ := List.mem_filter.mp hmkmem
      obtain ⟨resk, hresk, -, hbnek⟩ := recordingMask_true_iff.mp hmkrec
      rw [recordedPair_eq hresk] at hpair
      have hpref : ra.preferredAlternatives = resk.preferredAlternatives :=
        congrArg Prod.snd hpair
      have hrane : ra.preferredAlternatives ≠ [] := by
        rw [hpref]
        exact hbnek
      constructor
      · intro hkeep
        have hkeep2 : (!decide (ra.preferredAlternatives.length > 0)) = true :=
          hkeep
        rw [Bool.not_eq_true', decide_eq_false_iff_not, Nat.not_lt,
          Nat.le_zero] at hkeep2
        exact absurd (List.length_eq_zero.mp hkeep2) hrane
      · intro haeq
        exact absurd haeq hane

/-- Witness-style check of C3 on a concrete instance (also used as a sanity
example): two voters with identical ranking b over a. -/
theorem identical_rankings_pvc_singleton_witness :
    computePVCClassifier (["b", "a"].map (fun x => List.replicate 2 x))
      ["a", "b"] = some ["b"] :=
  identical_rankings_pvc_singleton ["a", "b"] ["b", "a"] 2 (by decide)
    (by decide) (by decide) (by decide) (by decide)

/-! ### The successive-elimination rounds (C5) -/

theorem count_foldl_append_replicate (q : Nat) :
    ∀ (l : List Nat) (acc : List Nat) (x : Nat),
      (l.foldl (fun acc alt => acc ++ List.replicate q alt) acc).count x =
        acc.count x + q * l.count x := by
  intro l
  induction l with
  | nil => intro acc x; simp
  | cons alt rest ih =>
    intro acc x
    rw [List.foldl_cons, ih]
    rw [List.count_append, List.count_replicate, List.count_cons]
    by_cases hx : x = alt
    · subst hx
      simp
      ring
    · simp [hx, Ne.symm hx]

theorem length_foldl_append_replicate (q : Nat) :
    ∀ (l : List Nat) (acc : List Nat),
      (l.foldl (fun acc alt => acc ++ List.replicate q alt) acc).length =
        acc.length + q * l.length := by
  intro l
  induction l with
  | nil => intro acc; simp
  | cons alt rest ih =>
    intro acc
    rw [List.foldl_cons, ih]
    simp
    ring

theorem initialRemainingAlts_count (m q x : Nat) :
    (initialRemainingAlts m q).count x = if x < m then q else 0 := by
  unfold initialRemainingAlts
  rw [count_foldl_append_replicate]
  simp only [List.count_nil, Nat.zero_add]
  by_cases hx : x < m
  · rw [if_pos hx, List.count_eq_one_of_mem (List.nodup_range m)
      (List.mem_range.mpr hx)]
    ring
  · rw [if_neg hx, List.count_eq_zero_of_not_mem
      (fun h => hx (List.mem_range.mp h))]
    ring

theorem initialRemainingAlts_length (m q : Nat) :
    (initialRemainingAlts m q).length = q * m := by
  unfold initialRemainingAlts
  rw [length_foldl_append_replicate]
  simp

theorem initialRemainingAlts_lt (m q : Nat) :
    ∀ x ∈ initialRemainingAlts m q, x < m := by
  intro x hx
  have hcount : 0 < (initialRemainingAlts m q).count x :=
    List.count_pos_iff.mpr hx
  rw [initialRemainingAlts_count] at hcount
  by_cases hxm : x < m
  · exact hxm
  · rw [if_neg hxm] at hcount
    omega

theorem remainingPrefsOf_count (counts : Nat → Nat) :
    ∀ (voterPrefs : List Nat) (x : Nat),
      (remainingPrefsOf voterPrefs counts).count x =
        voterPrefs.count x * counts x := by
  have haux : ∀ (l acc : List Nat) (x : Nat),
      (l.foldl (fun acc alt => acc ++ List.replicate (counts alt) alt)
        acc).count x = acc.count x + l.count x * counts x := by
    intro l
    induction l with
    | nil => intro acc x; simp
    | cons alt rest ih =>
      intro acc x
      rw [List.foldl_cons, ih, List.count_append, List.count_replicate,
        List.count_cons]
      by_cases hx : x = alt
      · subst hx
        simp
        ring
      · simp [hx, Ne.symm hx]
  intro voterPrefs x
  unfold remainingPrefsOf
  rw [haux]
  simp

theorem eliminateOne_spec {st : ElimState} {x : Nat}
    (hinv : ∀ y, st.remainingCounts y = st.remainingAlts.count y)
    (hmemx : x ∈ st.remainingAlts) :
    ∃ st2, eliminateOne st x = some st2 ∧
      st2.remainingAlts = st.remainingAlts.erase x ∧
      (∀ y, st2.remainingCounts y = st2.remainingAlts.count y) := by
  refine ⟨⟨st.remainingAlts.erase x,
    Function.update st.remainingCounts x (st.remainingCounts x - 1)⟩, ?_, rfl, ?_⟩
  · unfold eliminateOne
    rw [if_pos hmemx]
  · intro y
    by_cases hy : y = x
    · subst hy
      simp only [Function.update_same]
      rw [hinv y, List.count_erase_self]
    · simp only [Function.update_noteq hy]
      rw [hinv y, List.count_erase_of_ne hy]

theorem elim_fold {m : Nat} :
    ∀ (toElim : List Nat) (st : ElimState),
      (∀ y, st.remainingCounts y = st.remainingAlts.count y) →
      (∀ x ∈ st.remainingAlts, x < m) →
      (∀ y, toElim.count y ≤ st.remainingAlts.count y) →
      ∃ st2, foldlOpt eliminateOne st toElim = some st2 ∧
        (∀ y, st2.remainingCounts y = st2.remainingAlts.count y) ∧
        (∀ x ∈ st2.remainingAlts, x < m) ∧
        st2.remainingAlts.length = st.remainingAlts.length - toElim.length ∧
        toElim.length ≤ st.remainingAlts.length := by
  intro toElim
  induction toElim with
  | nil =>
    intro st hinv hlt _
    exact ⟨st, rfl, hinv, hlt, by simp, by simp⟩
  | cons x rest ih =>
    intro st hinv hlt hcle
    have hxmem : x ∈ st.remainingAlts := by
      have := hcle x
      rw [List.count_cons_self] at this
      exact List.count_pos_iff.mp (by omega)
    obtain ⟨st2, hstep, hals, hinv2⟩ := eliminateOne_spec hinv hxmem
    have hlt2 : ∀ z ∈ st2.remainingAlts, z < m := by
      intro z hz
      rw [hals] at hz
      exact hlt z (List.erase_subset x st.remainingAlts hz)
    have hcle2 : ∀ y, rest.count y ≤ st2.remainingAlts.count y := by
      intro y
      rw [hals]
      by_cases hy : y = x
      · subst hy
        rw [List.count_erase_self]
        have := hcle y
        rw [List.count_cons_self] at this
        omega
      · rw [List.count_erase_of_ne hy]
        have := hcle y
        rw [List.count_cons_of_ne hy] at this
        omega
    obtain ⟨st3, hrun, hinv3, hlt3, hlen3, hle3⟩ := ih st2 hinv2 hlt2 hcle2
    have hlen2 : st2.remainingAlts.length = st.remainingAlts.length - 1 := by
      rw [hals]
      exact List.length_erase_of_mem hxmem
    have hstlen : 1 ≤ st.remainingAlts.length := by
      have hcpos : 0 < st.remainingAlts.count x :=
        List.count_pos_iff.mpr hxmem
      have := List.count_le_length x st.remainingAlts
      omega
    refine ⟨st3, ?_, hinv3, hlt3, ?_, ?_⟩
    · simp only [foldlOpt, hstep]
      exact hrun
    · rw [hlen3, hlen2]
      simp only [List.length_cons]
      omega
    · rw [hlen2] at hle3
      simp only [List.length_cons]
      omega

theorem eliminationRound_spec {m p : Nat} (hp : 1 ≤ p)
    {st : ElimState} {P : List Nat}
    (hinv : ∀ y, st.remainingCounts y = st.remainingAlts.count y)
    (hlt : ∀ x ∈ st.remainingAlts, x < m)
    (hP : P.Perm (List.range m))
    (hL : p ≤ st.remainingAlts.length) :
    ∃ st2, eliminationRound p st P = some st2 ∧
      (∀ y, st2.remainingCounts y = st2.remainingAlts.count y) ∧
      (∀ x ∈ st2.remainingAlts, x < m) ∧
      st2.remainingAlts.length = st.remainingAlts.length - p := by
  have hcnt : ∀ y, (remainingPrefsOf P st.remainingCounts).count y =
      st.remainingAlts.count y := by
    intro y
    rw [remainingPrefsOf_count]
    by_cases hy : y < m
    · have hone : P.count y = 1 := by
        rw [hP.count_eq]
        exact List.count_eq_one_of_mem (List.nodup_range m)
          (List.mem_range.mpr hy)
      rw [hone, one_mul, hinv]
    · have hP0 : P.count y = 0 := by
        rw [hP.count_eq]
        exact List.count_eq_zero_of_not_mem (fun h => hy (List.mem_range.mp h))
      have hr0 : st.remainingAlts.count y = 0 :=
        List.count_eq_zero_of_not_mem (fun h => hy (hlt y h))
      rw [hP0, hr0]
      ring
  have hperm : (remainingPrefsOf P st.remainingCounts).Perm st.remainingAlts :=
    List.perm_iff_count.mpr hcnt
  have hpl : (remainingPrefsOf P st.remainingCounts).length =
      st.remainingAlts.length := hperm.length_eq
  have htlen : (jsSliceNeg (remainingPrefsOf P st.remainingCounts) p).length =
      p := by
    unfold jsSliceNeg
    rw [if_neg (by omega)]
    rw [List.length_drop, hpl]
    omega
  have htsub : (jsSliceNeg (remainingPrefsOf P st.remainingCounts) p).Sublist
      (remainingPrefsOf P st.remainingCounts) := by
    unfold jsSliceNeg
    rw [if_neg (by omega)]
    exact List.drop_sublist _ _
  have hcle : ∀ y,
      (jsSliceNeg (remainingPrefsOf P st.remainingCounts) p).count y ≤
        st.remainingAlts.count y := by
    intro y
    calc (jsSliceNeg (remainingPrefsOf P st.remainingCounts) p).count y
        ≤ (remainingPrefsOf P st.remainingCounts).count y := htsub.count_le y
      _ = st.remainingAlts.count y := hcnt y
  obtain ⟨st2, hrun, h1, h2, h3, _⟩ := elim_fold (m := m)
    (jsSliceNeg (remainingPrefsOf P st.remainingCounts) p) st hinv hlt hcle
  refine ⟨st2, ?_, h1, h2, ?_⟩
  · unfold eliminationRound
    exact hrun
  · rw [h3, htlen]

theorem runElimination_spec {m p q : Nat} (hp : 1 ≤ p) :
    ∀ (profile : List (List Nat)) (st : ElimState),
      (∀ P ∈ profile, P.Perm (List.range m)) →
      (∀ y, st.remainingCounts y = st.remainingAlts.count y) →
      (∀ x ∈ st.remainingAlts, x < m) →
      st.remainingAlts.length = profile.length * p + q →
      ∃ st2, runElimination false p profile st = some st2 ∧
        st2.remainingAlts.length = q := by
  intro profile
  induction profile with
  | nil =>
    intro st _ _ _ hlen
    exact ⟨st, rfl, by simpa using hlen⟩
  | cons P rest ih =>
    intro st hPs hinv hlt hlen
    have hmul : (P :: rest).length * p = rest.length * p + p := by
      rw [List.length_cons, Nat.succ_mul]
    have hL : p ≤ st.remainingAlts.length := by
      rw [hlen]
      omega
    obtain ⟨st2, hround, h1, h2, h3⟩ := eliminationRound_spec hp hinv hlt
      (hPs P (List.mem_cons_self P rest)) hL
    obtain ⟨st3, hrun, hlen3⟩ := ih st2
      (fun Q hQ => hPs Q (List.mem_cons_of_mem P hQ)) h1 h2
      (by rw [h3, hlen]; omega)
    refine ⟨st3, ?_, hlen3⟩
    simp only [runElimination, foldlOpt, Bool.false_and, Bool.false_eq_true,
      if_false]
    rw [hround]
    simp only [runElimination] at hrun
    exact hrun

theorem numRow_perm_range {preferences : List (List String)}
    {alternatives : List String} (hv : validProfile preferences alternatives)
    {voter : Nat} (hvn : voter < (preferences.headD []).length) :
    (numRow preferences alternatives voter).Perm
      (List.range alternatives.length) := by
  have hnd := numRow_nodup hv hvn
  have hsub : ∀ i ∈ numRow preferences alternatives voter,
      i ∈ List.range alternatives.length := by
    intro i hi
    obtain ⟨a, ha, rfl, -⟩ := mem_numRow hv hvn hi
    exact List.mem_range.mpr (altToIndexGet_spec ha).2.1
  have hlen : (numRow preferences alternatives voter).length =
      alternatives.length := by
    unfold numRow
    rw [List.length_map, columnOf_length]
    exact (validProfile_column hv hvn).1
  exact (List.subperm_of_subset hnd hsub).perm_of_length_le
    (by rw [hlen, List.length_range])

theorem buildNumericProfile_eq {preferences : List (List String)}
    {alternatives : List String} (hv : validProfile preferences alternatives) :
    buildNumericProfile preferences alternatives alternatives.length
        (preferences.headD []).length =
      some ((List.range (preferences.headD []).length).map
        (numRow preferences alternatives)) := by
  unfold buildNumericProfile
  exact mapMOpt_eq_map (fun v hv' => numRow_total hv (List.mem_range.mp hv'))

/-- C5 counterexample.  At `m = 1`, `n = 1` (a valid profile), JS
`slice(-0)` returns the whole array, so the single duplicated item is
eliminated in the first round: part_000's solver returns the empty set, and
the `src/lib/pvc.ts` revision fails its round-start assertion (throws,
modelled by `none`) — the remaining multiset is not non-empty and the
returned set does not have size at least 1. -/
theorem successive_elimination_m1_counterexample :
    computePVC [["a"]] ["a"] = some [] ∧ computePVCLib [["a"]] ["a"] = none := by
  constructor
  · decide
  · decide

/-- C5 as amended.  For every valid profile with `m ≥ 2` and `n ≥ 1` the
part_000 successive-elimination solver finishes all `n` rounds without any
assertion failing, and the remaining duplicated multiset is non-empty, so
the returned set has size at least 1.  (At `m = 1` the claim fails: see the
counterexample.) -/
theorem successive_elimination_nonempty (preferences : List (List String))
    (alternatives : List String) (hv : validProfile preferences alternatives)
    (hm : 2 ≤ alternatives.length)
    (hn : 0 < (preferences.headD []).length) :
    ∃ res, computePVC preferences alternatives = some res ∧ res ≠ [] := by
  have hg1 : 1 ≤ Nat.gcd (alternatives.length - 1)
      (preferences.headD []).length :=
    Nat.gcd_pos_of_pos_left _ (by omega)
  have hdm : Nat.gcd (alternatives.length - 1) (preferences.headD []).length ∣
      (alternatives.length - 1) := Nat.gcd_dvd_left _ _
  have hdn : Nat.gcd (alternatives.length - 1) (preferences.headD []).length ∣
      (preferences.headD []).length := Nat.gcd_dvd_right _ _
  have hp : 1 ≤ (alternatives.length - 1) /
      Nat.gcd (alternatives.length - 1) (preferences.headD []).length :=
    (Nat.one_le_div_iff hg1).mpr (Nat.le_of_dvd (by omega) hdm)
  have hq : 1 ≤ (preferences.headD []).length /
      Nat.gcd (alternatives.length - 1) (preferences.headD []).length :=
    (Nat.one_le_div_iff hg1).mpr (Nat.le_of_dvd hn hdn)
  have hnp : (preferences.headD []).length *
      ((alternatives.length - 1) /
        Nat.gcd (alternatives.length - 1) (preferences.headD []).length) =
      (alternatives.length - 1) *
      ((preferences.headD []).length /
        Nat.gcd (alternatives.length - 1) (preferences.headD []).length) := by
    rw [← Nat.mul_div_assoc _ hdm, ← Nat.mul_div_assoc _ hdn, Nat.mul_comm]
  have hlen0 : (initialRemainingAlts alternatives.length
      ((preferences.headD []).length /
        Nat.gcd (alternatives.length - 1) (preferences.headD []).length)).length =
      ((List.range (preferences.headD []).length).map
        (numRow preferences alternatives)).length *
      ((alternatives.length - 1) /
        Nat.gcd (alternatives.length - 1) (preferences.headD []).length) +
      ((preferences.headD []).length /
        Nat.gcd (alternatives.length - 1) (preferences.headD []).length) := by
    rw [initialRemainingAlts_length, List.length_map, List.length_range, hnp]
    have hm1 : alternatives.length - 1 + 1 = alternatives.length := by omega
    calc ((preferences.headD []).length /
          Nat.gcd (alternatives.length - 1) (preferences.headD []).length) *
          alternatives.length
        = ((preferences.headD []).length /
          Nat.gcd (alternatives.length - 1) (preferences.headD []).length) *
          (alternatives.length - 1 + 1) := by rw [hm1]
      _ = (alternatives.length - 1) *
          ((preferences.headD []).length /
            Nat.gcd (alternatives.length - 1) (preferences.headD []).length) +
          ((preferences.headD []).length /
            Nat.gcd (alternatives.length - 1) (preferences.headD []).length) := by
          ring
  obtain ⟨st2, hrun, hlen2⟩ := runElimination_spec
    (m := alternatives.length) (q := (preferences.headD []).length /
      Nat.gcd (alternatives.length - 1) (preferences.headD []).length) hp
    ((List.range (preferences.headD []).length).map
      (numRow preferences alternatives))
    ⟨initialRemainingAlts alternatives.length
      ((preferences.headD []).length /
        Nat.gcd (alternatives.length - 1) (preferences.headD []).length),
      fun alt => if alt < alternatives.length then
        ((preferences.headD []).length /
          Nat.gcd (alternatives.length - 1) (preferences.headD []).length)
      else 0⟩
    (by
      intro P hP
      obtain ⟨v, hvmem, rfl⟩ := List.mem_map.mp hP
      exact numRow_perm_range hv (List.mem_range.mp hvmem))
    (by
      intro y
      show (if y < alternatives.length then _ else 0) = _
      rw [initialRemainingAlts_count])
    (initialRemainingAlts_lt _ _)
    hlen0
  have hne2 : st2.remainingAlts ≠ [] := by
    intro hnil
    rw [hnil] at hlen2
    simp only [List.length_nil] at hlen2
    omega
  obtain ⟨z, hz⟩ : ∃ z, z ∈ st2.remainingAlts := by
    cases hcl : st2.remainingAlts with
    | nil => exact absurd hcl hne2
    | cons w ws => exact ⟨w, List.mem_cons_self w ws⟩
  refine ⟨(jsSetOfList st2.remainingAlts).map
    (fun idx => alternatives.getD idx ""), ?_, ?_⟩
  · simp only [computePVC]
    rw [if_neg (by push_neg; omega), buildNumericProfile_eq hv]
    simp only [hrun]
  · apply List.ne_nil_of_mem (a := alternatives.getD z "")
    exact List.mem_map.mpr ⟨z, mem_jsSetOfList.mpr hz, rfl⟩

/-- Witness for the amended C5 on a concrete valid two-voter profile. -/
theorem successive_elimination_nonempty_witness :
    ∃ res, computePVC [["a", "a"], ["b", "b"]] ["a", "b"] = some res ∧
      res ≠ [] :=
  successive_elimination_nonempty [["a", "a"], ["b", "b"]] ["a", "b"]
    (by unfold validProfile; decide) (by decide) (by decide)

/-! ### Determinism of the veto-coalition search (C8) -/

/-- C8 counterexample.  The `src/lib/pvc.ts` revision of
`computeVetoCoalition` fills the derived scalars `v_T` and
`lambda_B_over_P` from `Math.random()`: two calls on the same target,
matrix and universe that observe different random draws (here `0` and `1`)
return different results, so that revision is not deterministic. -/
theorem veto_random_counterexample :
    computeVetoCoalitionLib "b" [["a"], ["b"]] ["a", "b"] 0 0 ≠
      computeVetoCoalitionLib "b" [["a"], ["b"]] ["a", "b"] 1 1 := by
  intro h
  have hv := congrArg
    (fun r => r.dashboardValues.lambda_B_over_P) h
  simp only [computeVetoCoalitionLib] at hv
  exact absurd hv (by norm_num)

/-- C8 as amended.  The part_000 revision of `computeVetoCoalition` is
deterministic: any two successful runs on the same target, matrix and
universe return the same result, the selected alternative is echoed back,
and the returned coalition and preferred set are the fixed function of the
input given by the ascending mask scan (the last mask in `1 .. 2^n - 1`
whose check passes with a non-empty preferred set).  Likewise every
`compute_pvc` variant — the veto-based classifier and both
successive-elimination revisions — is idempotent: two calls on an unchanged
profile yield identical results (including identical error outcomes).  The
`src/lib/pvc.ts` stub of the coalition search is not deterministic: its
random dashboard scalars refute the claim there (see the
counterexample). -/
theorem veto_search_deterministic (alternative : String)
    (preferences : List (List String)) (alternatives : List String)
    (r r' : VetoCoalitionResult) (o1 o2 e1 e2 l1 l2 : Option (List String))
    (h : computeVetoCoalition alternative preferences alternatives = some r)
    (h' : computeVetoCoalition alternative preferences alternatives = some r')
    (hc1 : computePVCClassifier preferences alternatives = o1)
    (hc2 : computePVCClassifier preferences alternatives = o2)
    (he1 : computePVC preferences alternatives = e1)
    (he2 : computePVC preferences alternatives = e2)
    (hl1 : computePVCLib preferences alternatives = l1)
    (hl2 : computePVCLib preferences alternatives = l2) :
    r = r' ∧ o1 = o2 ∧ e1 = e2 ∧ l1 = l2 ∧
    r.selectedAlternative = alternative ∧
    (r.coalition, r.preferredAlternatives) =
      (((List.range' 1 (2 ^ (preferences.headD []).length - 1)).filter
          (recordingMask alternative preferences alternatives
            (preferences.headD []).length)).getLast?).elim ([], [])
        (recordedPair alternative preferences alternatives
          (preferences.headD []).length) := by
  obtain ⟨h1, h2⟩ := computeVetoCoalition_char h
  refine ⟨?_, hc1.symm.trans hc2, he1.symm.trans he2, hl1.symm.trans hl2,
    h1, h2⟩
  rw [h] at h'
  exact Option.some.inj h'

/-- Witness for the amended C8 at a concrete input. -/
theorem veto_search_deterministic_witness :
    (⟨[0], "b", ["a"], ⟨1, 1, mkRat 1 1, ["a"], mkRat 1 2⟩⟩ :
        VetoCoalitionResult) =
      ⟨[0], "b", ["a"], ⟨1, 1, mkRat 1 1, ["a"], mkRat 1 2⟩⟩ ∧
    (some ["a"] : Option (List String)) = some ["a"] ∧
    (some ["a"] : Option (List String)) = some ["a"] ∧
    (some ["a"] : Option (List String)) = some ["a"] ∧
    VetoCoalitionResult.selectedAlternative
        ⟨[0], "b", ["a"], ⟨1, 1, mkRat 1 1, ["a"], mkRat 1 2⟩⟩ = "b" ∧
    (VetoCoalitionResult.coalition
        ⟨[0], "b", ["a"], ⟨1, 1, mkRat 1 1, ["a"], mkRat 1 2⟩⟩,
      VetoCoalitionResult.preferredAlternatives
        ⟨[0], "b", ["a"], ⟨1, 1, mkRat 1 1, ["a"], mkRat 1 2⟩⟩) =
      (((List.range' 1 (2 ^ ([["a"], ["b"]].headD []).length - 1)).filter
          (recordingMask "b" [["a"], ["b"]] ["a", "b"]
            ([["a"], ["b"]].headD []).length)).getLast?).elim ([], [])
        (recordedPair "b" [["a"], ["b"]] ["a", "b"]
          ([["a"], ["b"]].headD []).length) :=
  veto_search_deterministic "b" [["a"], ["b"]] ["a", "b"]
    ⟨[0], "b", ["a"], ⟨1, 1, mkRat 1 1, ["a"], mkRat 1 2⟩⟩
    ⟨[0], "b", ["a"], ⟨1, 1, mkRat 1 1, ["a"], mkRat 1 2⟩⟩
    (some ["a"]) (some ["a"]) (some ["a"]) (some ["a"]) (some ["a"])
    (some ["a"])
    (by decide) (by decide) (by decide) (by decide) (by decide) (by decide)
    (by decide) (by decide)
